import Mathlib

/-!
# Verification of the telesight reply-graph builder

Shallow embedding of the reply-graph reconstruction subsystem of the
telesight repository, together with the interactive canvas zoom transform.

The embedding translates:
* the Telegram export data model (`TelegramMessage` and friends),
* `getMessageText`,
* `buildReplyGraph` (message index, reply collection, node materialization,
  undirected adjacency, BFS connected-component discovery, per-chain root
  selection and depth BFS, chain sorting),
* `screenToWorld` and `handleWheel` of the interactive canvas controller.

JavaScript `Map` / `Set` are modelled as insertion-ordered association
lists / lists, matching the iteration-order semantics the source relies on.
The two `while` loops of the builder are modelled with explicit fuel; the
builder passes a fuel bound that is provably sufficient (see the
termination theorems), so the cut-off branch is never taken.

Presentational fields that no claim concerns are omitted from the node
record: the floating-point visual `radius`, the `Date` conversion of the
timestamp string, and the d3-force simulation position fields
(`x y vx vy fx fy`), as well as the optional cached `sourceNode` /
`targetNode` references on edges.
-/

/-- Message type tag: the source compares `m.type === "message"`. -/
inductive MsgType where
  | message
  | service
deriving DecidableEq, Repr

/-- A typed text span of a Telegram message (`TextEntity` in the source;
only the fields the graph builder can observe are kept). -/
structure TextEntity where
  type : String
  text : String
deriving DecidableEq, Repr

/-- One element of a rich-text message body: a plain string or an entity. -/
inductive TextPart where
  | str (s : String)
  | entity (e : TextEntity)
deriving DecidableEq, Repr

/-- The `text` field of a message: a plain string or a list of spans. -/
inductive MsgText where
  | plain (s : String)
  | parts (l : List TextPart)
deriving DecidableEq, Repr

/-- A reaction on a message (`Reaction` in the source). -/
structure Reaction where
  type : String
  count : Nat
  emoji : String
deriving DecidableEq, Repr

/-- A Telegram export message record, restricted to the fields read by the
reply-graph builder (`id`, `type`, `date`, `date_unixtime`, `text`,
`text_entities`, `reply_to_message_id`, `reactions`, `photo`, `file`,
`media_type`). -/
structure TelegramMessage where
  id : Int
  type : MsgType
  date : String
  date_unixtime : String
  text : MsgText
  text_entities : List TextEntity
  reply_to_message_id : Option Int := none
  reactions : Option (List Reaction) := none
  photo : Option String := none
  file : Option String := none
  media_type : Option String := none
deriving DecidableEq, Repr

/-- `getMessageText` from the source: a plain string is returned as is, a
span list is flattened by concatenating each part's text. -/
def getMessageText (msg : TelegramMessage) : String :=
  match msg.text with
  | MsgText.plain s => s
  | MsgText.parts l => String.join (l.map (fun part =>
      match part with
      | TextPart.str s => s
      | TextPart.entity e => e.text))

/-- A node of the reply graph (`GraphNode` in the source, minus the
presentational float radius and d3 simulation fields). -/
structure GraphNode where
  id : Int
  message : TelegramMessage
  text : String
  reactionCount : Nat
  hasMedia : Bool
  isForwardedReply : Bool
  chainId : Nat
deriving DecidableEq, Repr

/-- A directed reply edge: `source` is the replied-to id, `target` the
replying message's id. -/
structure GraphEdge where
  source : Int
  target : Int
deriving DecidableEq, Repr

/-- A connected component of the reply graph (`ReplyChain` in the source). -/
structure ReplyChain where
  id : Nat
  nodes : List GraphNode
  edges : List GraphEdge
  rootId : Int
  depth : Nat
deriving DecidableEq, Repr

/-- The result record of `buildReplyGraph` (`ReplyGraphData` in the source). -/
structure ReplyGraphData where
  nodes : List GraphNode
  edges : List GraphEdge
  chains : List ReplyChain
  selfReplyCount : Nat
  crossChannelReplyCount : Nat
deriving DecidableEq, Repr

/-- `createPhantomMessage` from the source. -/
def createPhantomMessage (id : Int) : TelegramMessage :=
  { id := id
    type := MsgType.message
    date := "1970-01-01T00:00:00"
    date_unixtime := "0"
    text := MsgText.plain "[External / missing message]"
    text_entities := [] }

/-! ## Insertion-ordered maps and sets

JavaScript `Map.set` keeps the original insertion position when
overwriting an existing key; `Set.add` appends new elements; iteration is
in insertion order. -/

/-- `Map.set`: overwrite in place if the key exists, else append. -/
def mapSet {α : Type} (m : List (Int × α)) (k : Int) (v : α) : List (Int × α) :=
  if m.any (fun p => p.1 == k) then
    m.map (fun p => if p.1 == k then (k, v) else p)
  else
    m ++ [(k, v)]

/-- `Map.get`: value of the (unique) entry with the given key. -/
def mapGet? {α : Type} (m : List (Int × α)) (k : Int) : Option α :=
  (m.find? (fun p => p.1 == k)).map (fun p => p.2)

/-- `Map.has`. -/
def mapHas {α : Type} (m : List (Int × α)) (k : Int) : Bool :=
  m.any (fun p => p.1 == k)

/-- `Set.add` on an insertion-ordered set. -/
def setAdd (s : List Int) (x : Int) : List Int :=
  if s.contains x then s else s ++ [x]

/-- The message index of §4.1: `messageMap.set(msg.id, msg)` over the list
(last write wins on duplicate ids). -/
def buildMessageMap (messages : List TelegramMessage) : List (Int × TelegramMessage) :=
  messages.foldl (fun m msg => mapSet m msg.id msg) []

/-! ## Reply collection (first loop of `buildReplyGraph`) -/

/-- Accumulator of the reply-collection loop: the two counters, the
insertion-ordered node-id set and the edge list. -/
structure CollectState where
  selfReplyCount : Nat
  crossChannelReplyCount : Nat
  nodeIds : List Int
  edges : List GraphEdge
deriving DecidableEq, Repr

/-- One iteration of the `for (const msg of replyMessages)` loop. The
`none` branch is unreachable because `replyMessages` is filtered to
messages carrying a reply target. -/
def collectStep (messageMap : List (Int × TelegramMessage)) (includeCrossChannel : Bool)
    (s : CollectState) (msg : TelegramMessage) : CollectState :=
  match msg.reply_to_message_id with
  | none => s
  | some targetId =>
    if mapHas messageMap targetId then
      { s with
        selfReplyCount := s.selfReplyCount + 1
        nodeIds := setAdd (setAdd s.nodeIds msg.id) targetId
        edges := s.edges ++ [{ source := targetId, target := msg.id }] }
    else
      if includeCrossChannel then
        { s with
          crossChannelReplyCount := s.crossChannelReplyCount + 1
          nodeIds := setAdd (setAdd s.nodeIds msg.id) targetId
          edges := s.edges ++ [{ source := targetId, target := msg.id }] }
      else
        { s with crossChannelReplyCount := s.crossChannelReplyCount + 1 }

/-! ## Node materialization -/

/-- Build one `GraphNode` for a registered id: resolve the message from the
index, else synthesize a phantom. -/
def mkGraphNode (messageMap : List (Int × TelegramMessage)) (id : Int) : GraphNode :=
  let msg? := mapGet? messageMap id
  let text := match msg? with
    | some m => getMessageText m
    | none => "[External message]"
  let reactionCount := match msg? with
    | some m => (m.reactions.getD []).foldl (fun s r => s + r.count) 0
    | none => 0
  let hasMedia := match msg? with
    | some m => m.photo.isSome || m.file.isSome || m.media_type.isSome
    | none => false
  { id := id
    message := msg?.getD (createPhantomMessage id)
    text := text.take 120
    reactionCount := reactionCount
    hasMedia := hasMedia
    isForwardedReply := !(mapHas messageMap id)
    chainId := 0 }

/-! ## Undirected adjacency -/

/-- `adj.get(k)!.push(v)`: append `v` to the list stored under key `k`.
The source asserts the key exists (`!`); on a missing key this model is a
no-op, and the node-set completeness invariant shows the key is always
present when the builder calls it. -/
def mapPush (m : List (Int × List Int)) (k : Int) (v : Int) : List (Int × List Int) :=
  m.map (fun p => if p.1 == k then (p.1, p.2 ++ [v]) else p)

/-- The adjacency map of `buildReplyGraph`: an empty list per node id,
then each edge contributes both directions. -/
def buildAdj (nodeIds : List Int) (edges : List GraphEdge) : List (Int × List Int) :=
  let init := nodeIds.foldl (fun a i => mapSet a i ([] : List Int)) []
  edges.foldl (fun a e => mapPush (mapPush a e.source e.target) e.target e.source) init

/-! ## Component-discovery BFS -/

/-- Neighbor processing of the component BFS: enqueue and mark unvisited
neighbors. State is `(queue, visited)`. -/
def bfsStepFold (qv : List Int × List Int) (n : Int) : List Int × List Int :=
  if qv.2.contains n then qv else (qv.1 ++ [n], qv.2 ++ [n])

/-- The `while (queue.length > 0)` component-discovery loop, with explicit
fuel. Per step: dequeue `current`, record it in the chain accumulator, and
enqueue its unvisited neighbors. Returns `(chainNodeIds, visited)`. The
fuel-exhausted branch cuts the loop short; the builder's fuel bound is
proved sufficient, so that branch is never taken there. -/
def bfsLoop (adj : List (Int × List Int)) :
    Nat → List Int → List Int → List Int → List Int × List Int
  | 0, _, visited, acc => (acc, visited)
  | _ + 1, [], visited, acc => (acc, visited)
  | fuel + 1, current :: rest, visited, acc =>
    let ns := (mapGet? adj current).getD []
    let qv := ns.foldl bfsStepFold (rest, visited)
    bfsLoop adj fuel qv.1 qv.2 (acc ++ [current])

/-! ## Root selection and depth BFS -/

/-- Root selection of a chain: candidates are members with no incoming
intra-chain edge; the source computes `roots[0] || chainNodeIds[0]`, so a
first candidate whose id is `0` (falsy in JavaScript) also falls through
to the first node in discovery order. `headD 0` models `chainNodeIds[0]`;
a chain is never empty when this is called. -/
def rootOf (chainNodeIds : List Int) (chainEdges : List GraphEdge) : Int :=
  let hasIncoming := chainEdges.map (fun e => e.target)
  let roots := chainNodeIds.filter (fun i => !(hasIncoming.contains i))
  match roots with
  | r :: _ => if r = 0 then chainNodeIds.headD 0 else r
  | [] => chainNodeIds.headD 0

/-- Edge scan of the depth BFS: for each intra-chain edge leaving the
dequeued node, enqueue its unvisited target one level deeper. State is
`(queue, depthVisited)`. -/
def depthStepFold (cid : Int) (d : Nat) (qv : List (Int × Nat) × List Int)
    (e : GraphEdge) : List (Int × Nat) × List Int :=
  if e.source == cid && !(qv.2.contains e.target) then
    (qv.1 ++ [(e.target, d + 1)], qv.2 ++ [e.target])
  else qv

/-- The depth BFS from the chain root over directed intra-chain edges,
with explicit fuel; returns the maximum hop count reached. -/
def depthBfs (chainEdges : List GraphEdge) :
    Nat → List (Int × Nat) → List Int → Nat → Nat
  | 0, _, _, maxDepth => maxDepth
  | _ + 1, [], _, maxDepth => maxDepth
  | fuel + 1, (cid, d) :: rest, dvisited, maxDepth =>
    let qv := chainEdges.foldl (depthStepFold cid d) (rest, dvisited)
    depthBfs chainEdges fuel qv.1 qv.2 (max maxDepth d)

/-! ## Chain discovery loop -/

/-- A discovered chain before node objects are attached: its 1-based id,
member ids in BFS dequeue order, intra-chain edges, root and depth. -/
structure PreChain where
  id : Nat
  nodeIds : List Int
  edges : List GraphEdge
  rootId : Int
  depth : Nat
deriving DecidableEq, Repr

/-- State of the `for (const startId of nodeIds)` loop. -/
structure DiscoverState where
  visited : List Int
  chainCounter : Nat
  pre : List PreChain
deriving DecidableEq, Repr

/-- The intra-chain edge list: edges with both endpoints inside the
chain. -/
def chainEdgesOf (edges : List GraphEdge) (chainNodeIds : List Int) : List GraphEdge :=
  edges.filter (fun e => chainNodeIds.contains e.source && chainNodeIds.contains e.target)

/-- Assemble one discovered chain: restrict the edge list to the
component, select the root and run the depth BFS from it. -/
def buildPreChain (edges : List GraphEdge) (fuel : Nat) (cid : Nat)
    (chainNodeIds : List Int) : PreChain :=
  { id := cid
    nodeIds := chainNodeIds
    edges := chainEdgesOf edges chainNodeIds
    rootId := rootOf chainNodeIds (chainEdgesOf edges chainNodeIds)
    depth := depthBfs (chainEdgesOf edges chainNodeIds) fuel
      [(rootOf chainNodeIds (chainEdgesOf edges chainNodeIds), 0)]
      [rootOf chainNodeIds (chainEdgesOf edges chainNodeIds)] 0 }

/-- One iteration of the chain-discovery loop: skip visited start ids,
otherwise run the component BFS and assemble the discovered chain. -/
def discoverStep (adj : List (Int × List Int)) (edges : List GraphEdge) (fuel : Nat)
    (st : DiscoverState) (startId : Int) : DiscoverState :=
  if st.visited.contains startId then st
  else
    { visited := (bfsLoop adj fuel [startId] (st.visited ++ [startId]) []).2
      chainCounter := st.chainCounter + 1
      pre := st.pre ++ [buildPreChain edges fuel (st.chainCounter + 1)
        (bfsLoop adj fuel [startId] (st.visited ++ [startId]) []).1] }

/-- The chain id finally stored on a node: the source mutates
`node.chainId` when the node is dequeued by the BFS of its (unique)
chain; a node never dequeued keeps the initial `0`. -/
def chainIdOf (pre : List PreChain) (i : Int) : Nat :=
  match pre.find? (fun pc => pc.nodeIds.contains i) with
  | some pc => pc.id
  | none => 0

/-- `nodeMap.get(id)`: look a node up by id in the materialized node list. -/
def findNode (nodes : List GraphNode) (i : Int) : Option GraphNode :=
  nodes.find? (fun n => n.id == i)

/-- Placeholder for the source's non-null assertion `nodeMap.get(id)!`;
never reached, as every chain member id has a materialized node. -/
def defaultGraphNode : GraphNode :=
  mkGraphNode [] 0

/-- Insert a chain into a list already sorted by descending member count,
before the first chain with at most as many members: together with
`sortChainsDesc` this is a stable descending sort. -/
def insertChainDesc (c : ReplyChain) : List ReplyChain → List ReplyChain
  | [] => [c]
  | d :: ds =>
    if d.nodes.length ≤ c.nodes.length then c :: d :: ds else d :: insertChainDesc c ds

/-- `chains.sort((a, b) => b.nodes.length - a.nodes.length)`: JavaScript's
stable sort by descending member count, modelled as a stable insertion
sort (stability plus the comparator determine the output). -/
def sortChainsDesc : List ReplyChain → List ReplyChain
  | [] => []
  | c :: cs => insertChainDesc c (sortChainsDesc cs)

/-- The `replyMessages` selection: messages of type `message` carrying a
non-null reply target. -/
def replyMessagesOf (messages : List TelegramMessage) : List TelegramMessage :=
  messages.filter (fun m => m.type == MsgType.message && m.reply_to_message_id.isSome)

/-- The state after the reply-collection loop of `buildReplyGraph`. -/
def collectStateOf (messages : List TelegramMessage) (includeCrossChannel : Bool) :
    CollectState :=
  (replyMessagesOf messages).foldl (collectStep (buildMessageMap messages) includeCrossChannel)
    { selfReplyCount := 0, crossChannelReplyCount := 0, nodeIds := [], edges := [] }

/-- The adjacency map the builder hands to the component BFS. -/
def adjOf (messages : List TelegramMessage) (includeCrossChannel : Bool) :
    List (Int × List Int) :=
  buildAdj (collectStateOf messages includeCrossChannel).nodeIds
    (collectStateOf messages includeCrossChannel).edges

/-- The fuel bound the builder uses for both BFS loops, plus a slack
parameter used to state termination. -/
def fuelOf (extraFuel : Nat) (messages : List TelegramMessage)
    (includeCrossChannel : Bool) : Nat :=
  (collectStateOf messages includeCrossChannel).nodeIds.length
    + 2 * (collectStateOf messages includeCrossChannel).edges.length + 1 + extraFuel

/-- The state after the chain-discovery loop of `buildReplyGraph`. -/
def discoverOf (extraFuel : Nat) (messages : List TelegramMessage)
    (includeCrossChannel : Bool) : DiscoverState :=
  (collectStateOf messages includeCrossChannel).nodeIds.foldl
    (discoverStep (adjOf messages includeCrossChannel)
      (collectStateOf messages includeCrossChannel).edges
      (fuelOf extraFuel messages includeCrossChannel))
    { visited := [], chainCounter := 0, pre := [] }

/-- The materialized node list with the chain ids assigned by discovery. -/
def finalNodesOf (extraFuel : Nat) (messages : List TelegramMessage)
    (includeCrossChannel : Bool) : List GraphNode :=
  ((collectStateOf messages includeCrossChannel).nodeIds.map
      (mkGraphNode (buildMessageMap messages))).map
    (fun n => { n with
      chainId := chainIdOf (discoverOf extraFuel messages includeCrossChannel).pre n.id })

/-- The chain records before the final sort: each discovered component
with its node objects attached by id lookup (`nodeMap.get(id)!`). -/
def chainsOf (extraFuel : Nat) (messages : List TelegramMessage)
    (includeCrossChannel : Bool) : List ReplyChain :=
  (discoverOf extraFuel messages includeCrossChannel).pre.map (fun pc =>
    ({ id := pc.id
       nodes := pc.nodeIds.map (fun i =>
         (findNode (finalNodesOf extraFuel messages includeCrossChannel) i).getD
           defaultGraphNode)
       edges := pc.edges
       rootId := pc.rootId
       depth := pc.depth } : ReplyChain))

/-- `buildReplyGraph`, with the fuel of the two BFS loops exposed as an
extra parameter on top of the bound the builder uses; `extraFuel = 0` is
the builder itself, and the termination theorem shows any larger fuel
gives the same result. -/
def buildReplyGraphAux (extraFuel : Nat) (messages : List TelegramMessage)
    (includeCrossChannel : Bool) : ReplyGraphData :=
  { nodes := finalNodesOf extraFuel messages includeCrossChannel
    edges := (collectStateOf messages includeCrossChannel).edges
    chains := sortChainsDesc (chainsOf extraFuel messages includeCrossChannel)
    selfReplyCount := (collectStateOf messages includeCrossChannel).selfReplyCount
    crossChannelReplyCount :=
      (collectStateOf messages includeCrossChannel).crossChannelReplyCount }

/-- `buildReplyGraph` from the source. -/
def buildReplyGraph (messages : List TelegramMessage) (includeCrossChannel : Bool) :
    ReplyGraphData :=
  buildReplyGraphAux 0 messages includeCrossChannel

/-! ## Interactive canvas controller (zoom) -/

/-- The view transform of the interactive canvas: pan offset and zoom
scale (`transformRef`). Exact rational arithmetic models the numeric
computation. -/
structure ViewTransform where
  x : ℚ
  y : ℚ
  k : ℚ
deriving DecidableEq, Repr

/-- The canvas bounding rectangle (`getBoundingClientRect`). -/
structure CanvasRect where
  left : ℚ
  top : ℚ
  width : ℚ
  height : ℚ
deriving DecidableEq, Repr

/-- `screenToWorld`: invert the centered translate-and-scale transform. -/
def screenToWorld (t : ViewTransform) (rect : CanvasRect) (sx sy : ℚ) : ℚ × ℚ :=
  let cx := rect.width / 2
  let cy := rect.height / 2
  ((sx - rect.left - cx - t.x) / t.k, (sy - rect.top - cy - t.y) / t.k)

/-- `handleWheel`: multiply the scale by 0.92 or 1.08 depending on wheel
direction, clamp to `[0.1, 5]`, and recompute the translation about the
cursor. -/
def handleWheel (t : ViewTransform) (rect : CanvasRect)
    (clientX clientY deltaY : ℚ) : ViewTransform :=
  let delta : ℚ := if deltaY > 0 then 92 / 100 else 108 / 100
  let newK := max (1 / 10) (min 5 (t.k * delta))
  let mx := clientX - rect.left - rect.width / 2
  let my := clientY - rect.top - rect.height / 2
  { x := mx - (mx - t.x) * (newK / t.k)
    y := my - (my - t.y) * (newK / t.k)
    k := newK }

/-! ## Proof-layer helpers

The following definitions are not part of the source translation: they
characterize what the two BFS loops enqueue, and measure how much
unexplored adjacency remains, to drive the termination and partition
proofs. -/

/-- All neighbor occurrences stored in an adjacency map (with
multiplicity). -/
def adjValues (adj : List (Int × List Int)) : List Int :=
  (adj.map (fun p => p.2)).flatten

/-- Number of occurrences in `l` of elements not yet in `visited`. -/
def countNotIn : List Int → List Int → Nat
  | [], _ => 0
  | x :: rest, visited => (if x ∈ visited then 0 else 1) + countNotIn rest visited

/-- The elements the component BFS enqueues while scanning a neighbor
list: unvisited neighbors, first occurrence only. -/
def bfsNew : List Int → List Int → List Int
  | [], _ => []
  | n :: rest, visited =>
    if visited.contains n then bfsNew rest visited
    else n :: bfsNew rest (visited ++ [n])

/-- The targets the depth BFS enqueues while scanning the intra-chain
edge list from a dequeued node. -/
def depthNew : List GraphEdge → Int → List Int → List Int
  | [], _, _ => []
  | e :: rest, cid, visited =>
    if e.source == cid && !(visited.contains e.target) then
      e.target :: depthNew rest cid (visited ++ [e.target])
    else
      depthNew rest cid visited

/-! ## Concrete inputs used by scenario theorems and witnesses -/

/-- A minimal message of type `message` with a given id and reply target. -/
def mkMsg (i : Int) (r : Option Int) : TelegramMessage :=
  { id := i
    type := MsgType.message
    date := "2024-01-01T00:00:00"
    date_unixtime := "1704067200"
    text := MsgText.plain "hi"
    text_entities := []
    reply_to_message_id := r }

/-- The dangling-reference scenario input: one message replying to an id
absent from the export. -/
def danglingInput : List TelegramMessage :=
  [mkMsg 5 (some 999)]

/-- A two-message self-reply whose unique candidate root has id `0`. -/
def rootZeroInput : List TelegramMessage :=
  [mkMsg 0 none, mkMsg 5 (some 0)]

/-- A straight four-message reply chain `A → B → C → D` whose head `A` has
id `0` (ids 0, 1, 2, 3; three reply edges; every target present). -/
def chainZeroInput : List TelegramMessage :=
  [mkMsg 0 none, mkMsg 1 (some 0), mkMsg 2 (some 1), mkMsg 3 (some 2)]

/-- **C6**: on `[{id:5, reply_to_message_id:999}]` with the target absent
from the export: excluded cross-channel replies yield no nodes, no edges,
`selfReplyCount = 0` and `crossChannelReplyCount = 1`; included ones yield
the node set `{5, 999}` with `999` a phantom (`isForwardedReply = true`)
and the single edge `{source := 999, target := 5}`. -/
theorem claim_C6 :
    (buildReplyGraph danglingInput false).nodes = []
    ∧ (buildReplyGraph danglingInput false).edges = []
    ∧ (buildReplyGraph danglingInput false).selfReplyCount = 0
    ∧ (buildReplyGraph danglingInput false).crossChannelReplyCount = 1
    ∧ (buildReplyGraph danglingInput true).nodes.map GraphNode.id = [5, 999]
    ∧ ((findNode (buildReplyGraph danglingInput true).nodes 999).map
        GraphNode.isForwardedReply) = some true
    ∧ (buildReplyGraph danglingInput true).edges = [{ source := 999, target := 5 }] := by
  decide

/-- **C3** (failing evaluation): on `rootZeroInput` the single chain has
members `[5, 0]`, its only intra-chain edge targets `5`, so member `0` has
no incoming edge and is a candidate root — yet the builder returns
`rootId = 5`, a node with an incoming edge, because the JavaScript
expression `roots[0] || chainNodeIds[0]` treats the candidate id `0` as
falsy and falls through to the discovery-order fallback. -/
theorem claim_C3 :
    ((buildReplyGraph rootZeroInput false).chains.map fun c =>
      (c.nodes.map GraphNode.id, c.edges.map GraphEdge.target, c.rootId))
      = [([5, 0], [5], 5)] := by
  decide

/-- **C5** (failing evaluation): on the straight chain `0 → 1 → 2 → 3`
(four messages, three reply edges, no branching, all targets present) the
builder returns `rootId = 1` and `depth = 2`, not `rootId = 0` and
`depth = 3`: the candidate root `0` is dropped by the falsy
`roots[0] || chainNodeIds[0]` fallback, and the depth BFS then starts from
the mid-chain node `1`. -/
theorem claim_C5 :
    ((buildReplyGraph chainZeroInput false).chains.map fun c =>
      (c.nodes.map GraphNode.id, c.rootId, c.depth))
      = [([1, 0, 2, 3], 1, 2)] := by
  decide

/-- Zoom algebra: recomputing the translation about the cursor keeps the
cursor-relative world coordinate fixed, for any nonzero old and new scale. -/
theorem zoom_fixed_point (mx tx k newK : ℚ) (hk : k ≠ 0) (hK : newK ≠ 0) :
    (mx - (mx - (mx - tx) * (newK / k))) / newK = (mx - tx) / k := by
  field_simp
  ring

/-- The clamped wheel scale is positive (it is at least `1 / 10`). -/
theorem handleWheel_k_pos (t : ViewTransform) (rect : CanvasRect)
    (clientX clientY deltaY : ℚ) : 0 < (handleWheel t rect clientX clientY deltaY).k := by
  unfold handleWheel
  exact lt_of_lt_of_le (by norm_num) (le_max_left _ _)

/-- **C8**: for every view transform with positive zoom scale and every
cursor position, the wheel-zoom update (scale times 0.92 or 1.08, clamped
to `[0.1, 5]`, translation recomputed about the cursor) leaves the world
coordinate of the point under the cursor unchanged. -/
theorem claim_C8 (t : ViewTransform) (rect : CanvasRect)
    (clientX clientY deltaY : ℚ) (hk : 0 < t.k) :
    screenToWorld (handleWheel t rect clientX clientY deltaY) rect clientX clientY
      = screenToWorld t rect clientX clientY := by
  have hK := handleWheel_k_pos t rect clientX clientY deltaY
  unfold screenToWorld handleWheel at hK ⊢
  simp only [Prod.mk.injEq]
  constructor
  · exact zoom_fixed_point _ _ _ _ (ne_of_gt hk) (ne_of_gt hK)
  · exact zoom_fixed_point _ _ _ _ (ne_of_gt hk) (ne_of_gt hK)

/-- Witness for **C8** at a concrete transform, rectangle and cursor. -/
theorem claim_C8_witness :
    0 < (ViewTransform.mk 3 (-2) 1).k
    ∧ screenToWorld
        (handleWheel (ViewTransform.mk 3 (-2) 1) (CanvasRect.mk 0 0 100 80) 10 10 1)
        (CanvasRect.mk 0 0 100 80) 10 10
      = screenToWorld (ViewTransform.mk 3 (-2) 1) (CanvasRect.mk 0 0 100 80) 10 10 :=
  ⟨by norm_num, claim_C8 (ViewTransform.mk 3 (-2) 1) (CanvasRect.mk 0 0 100 80) 10 10 1
    (by norm_num)⟩

/-! ## Basic lemmas: ordered sets and maps -/

/-- An added element is a member. -/
theorem setAdd_mem_self (s : List Int) (x : Int) : x ∈ setAdd s x := by
  unfold setAdd
  split
  next h => exact List.elem_iff.mp h
  next h => simp

/-- `setAdd` keeps existing members. -/
theorem setAdd_mem_mono {s : List Int} {y : Int} (x : Int) (h : y ∈ s) : y ∈ setAdd s x := by
  unfold setAdd
  split
  · exact h
  · simp [h]

/-- Membership after `setAdd`. -/
theorem mem_setAdd_iff {s : List Int} {x y : Int} : y ∈ setAdd s x ↔ y ∈ s ∨ y = x := by
  unfold setAdd
  split
  next h =>
    have hx : x ∈ s := List.elem_iff.mp h
    constructor
    · exact Or.inl
    · rintro (h' | rfl)
      · exact h'
      · exact hx
  next h => simp

/-- `setAdd` preserves `Nodup`. -/
theorem setAdd_nodup {s : List Int} (h : s.Nodup) (x : Int) : (setAdd s x).Nodup := by
  unfold setAdd
  split
  · exact h
  next hx =>
    have hxs : x ∉ s := fun hm => hx (List.elem_iff.mpr hm)
    simp [List.nodup_append, h, hxs]

/-- `Map.has` holds exactly when some entry carries the key. -/
theorem mapHas_iff {α : Type} (mm : List (Int × α)) (q : Int) :
    mapHas mm q = true ↔ ∃ p ∈ mm, p.1 = q := by
  simp [mapHas, List.any_eq_true]

/-- Key membership after `Map.set`. -/
theorem mapHas_mapSet_iff {α : Type} (mm : List (Int × α)) (k : Int) (v : α) (q : Int) :
    mapHas (mapSet mm k v) q = true ↔ q = k ∨ mapHas mm q = true := by
  rw [mapHas_iff, mapHas_iff]
  unfold mapSet
  split
  next hk =>
    have hk' : ∃ p ∈ mm, p.1 = k := by simpa [List.any_eq_true] using hk
    constructor
    · rintro ⟨p, hp, hq⟩
      rcases List.mem_map.mp hp with ⟨e, he, rfl⟩
      by_cases h1 : e.1 = k
      · simp only [h1, beq_self_eq_true, if_true] at hq
        exact Or.inl hq.symm
      · simp only [beq_iff_eq, h1, if_false] at hq
        exact Or.inr ⟨e, he, hq⟩
    · rintro (rfl | ⟨p, hp, hq⟩)
      · obtain ⟨e, he, hek⟩ := hk'
        exact ⟨(q, v), List.mem_map.mpr ⟨e, he, by simp [hek]⟩, rfl⟩
      · by_cases h1 : p.1 = k
        · obtain ⟨e, he, hek⟩ := hk'
          refine ⟨(k, v), List.mem_map.mpr ⟨e, he, by simp [hek]⟩, ?_⟩
          rw [← hq, h1]
        · exact ⟨p, List.mem_map.mpr ⟨p, hp, by simp [h1]⟩, hq⟩
  next hk =>
    constructor
    · rintro ⟨p, hp, hq⟩
      rcases List.mem_append.mp hp with hp | hp
      · exact Or.inr ⟨p, hp, hq⟩
      · rw [List.mem_singleton] at hp
        subst hp
        exact Or.inl hq.symm
    · rintro (rfl | ⟨p, hp, hq⟩)
      · exact ⟨(q, v), List.mem_append.mpr (Or.inr (by simp)), rfl⟩
      · exact ⟨p, List.mem_append.mpr (Or.inl hp), hq⟩

/-- Every listed message's id is a key of the message index. -/
theorem mapHas_buildMessageMap (messages : List TelegramMessage) (k : Int)
    (h : ∃ m ∈ messages, m.id = k) : mapHas (buildMessageMap messages) k = true := by
  unfold buildMessageMap
  suffices hgen : ∀ (acc : List (Int × TelegramMessage)),
      (mapHas acc k = true ∨ ∃ m ∈ messages, m.id = k) →
      mapHas (messages.foldl (fun m msg => mapSet m msg.id msg) acc) k = true by
    exact hgen [] (Or.inr h)
  clear h
  induction messages with
  | nil =>
    intro acc h
    rcases h with h | ⟨m, hm, _⟩
    · exact h
    · exact absurd hm (List.not_mem_nil m)
  | cons m ms ih =>
    intro acc h
    simp only [List.foldl_cons]
    apply ih
    rcases h with h | ⟨m', hm', hid⟩
    · exact Or.inl ((mapHas_mapSet_iff acc m.id m k).mpr (Or.inr h))
    · rcases List.mem_cons.mp hm' with rfl | hm'
      · exact Or.inl ((mapHas_mapSet_iff acc m'.id m' k).mpr (Or.inl hid.symm))
      · exact Or.inr ⟨m', hm', hid⟩

/-! ## Lemmas on the reply-collection loop -/

/-- `selfReplyCount` after one collection step. -/
theorem collectStep_selfCount (mm : List (Int × TelegramMessage)) (b : Bool)
    (s : CollectState) (m : TelegramMessage) :
    (collectStep mm b s m).selfReplyCount
      = s.selfReplyCount + (match m.reply_to_message_id with
          | some t => if mapHas mm t then 1 else 0
          | none => 0) := by
  unfold collectStep
  cases hm : m.reply_to_message_id with
  | none => simp
  | some t =>
    simp only
    split_ifs <;> simp

/-- `crossChannelReplyCount` after one collection step. -/
theorem collectStep_crossCount (mm : List (Int × TelegramMessage)) (b : Bool)
    (s : CollectState) (m : TelegramMessage) :
    (collectStep mm b s m).crossChannelReplyCount
      = s.crossChannelReplyCount + (match m.reply_to_message_id with
          | some t => if mapHas mm t then 0 else 1
          | none => 0) := by
  unfold collectStep
  cases hm : m.reply_to_message_id with
  | none => simp
  | some t =>
    simp only
    split_ifs <;> simp

/-- Edge-list length after one collection step. -/
theorem collectStep_edgesLength (mm : List (Int × TelegramMessage)) (b : Bool)
    (s : CollectState) (m : TelegramMessage) :
    (collectStep mm b s m).edges.length
      = s.edges.length + (match m.reply_to_message_id with
          | some t => if mapHas mm t then 1 else if b then 1 else 0
          | none => 0) := by
  unfold collectStep
  cases hm : m.reply_to_message_id with
  | none => simp
  | some t =>
    simp only
    split_ifs <;> simp

/-- The two counters after the collection loop do not depend on
`includeCrossChannel` (or on the node/edge components of the start state). -/
theorem collect_counts_eq (mm : List (Int × TelegramMessage)) (b₁ b₂ : Bool)
    (msgs : List TelegramMessage) :
    ∀ s₁ s₂ : CollectState, s₁.selfReplyCount = s₂.selfReplyCount →
      s₁.crossChannelReplyCount = s₂.crossChannelReplyCount →
      (msgs.foldl (collectStep mm b₁) s₁).selfReplyCount
          = (msgs.foldl (collectStep mm b₂) s₂).selfReplyCount
        ∧ (msgs.foldl (collectStep mm b₁) s₁).crossChannelReplyCount
          = (msgs.foldl (collectStep mm b₂) s₂).crossChannelReplyCount := by
  induction msgs with
  | nil => exact fun s₁ s₂ h1 h2 => ⟨h1, h2⟩
  | cons m ms ih =>
    intro s₁ s₂ h1 h2
    simp only [List.foldl_cons]
    apply ih
    · rw [collectStep_selfCount, collectStep_selfCount, h1]
    · rw [collectStep_crossCount, collectStep_crossCount, h2]

/-- With cross-channel replies included, each collection step adds exactly
one edge per counted reply. -/
theorem collect_len_true (mm : List (Int × TelegramMessage))
    (msgs : List TelegramMessage) :
    ∀ s : CollectState,
      (msgs.foldl (collectStep mm true) s).edges.length
          + s.selfReplyCount + s.crossChannelReplyCount
        = s.edges.length + (msgs.foldl (collectStep mm true) s).selfReplyCount
          + (msgs.foldl (collectStep mm true) s).crossChannelReplyCount := by
  induction msgs with
  | nil => intro s; simp
  | cons m ms ih =>
    intro s
    simp only [List.foldl_cons]
    have h := ih (collectStep mm true s m)
    have h1 := collectStep_selfCount mm true s m
    have h2 := collectStep_crossCount mm true s m
    have h3 := collectStep_edgesLength mm true s m
    cases hm : m.reply_to_message_id with
    | none => simp [hm] at h1 h2 h3; omega
    | some t =>
      by_cases hh : mapHas mm t = true
      · simp [hm, hh] at h1 h2 h3; omega
      · simp [hm, hh] at h1 h2 h3; omega

/-- With cross-channel replies excluded, each collection step adds exactly
one edge per self reply and none otherwise. -/
theorem collect_len_false (mm : List (Int × TelegramMessage))
    (msgs : List TelegramMessage) :
    ∀ s : CollectState,
      (msgs.foldl (collectStep mm false) s).edges.length + s.selfReplyCount
        = s.edges.length + (msgs.foldl (collectStep mm false) s).selfReplyCount := by
  induction msgs with
  | nil => intro s; simp
  | cons m ms ih =>
    intro s
    simp only [List.foldl_cons]
    have h := ih (collectStep mm false s m)
    have h1 := collectStep_selfCount mm false s m
    have h3 := collectStep_edgesLength mm false s m
    cases hm : m.reply_to_message_id with
    | none => simp [hm] at h1 h3; omega
    | some t =>
      by_cases hh : mapHas mm t = true
      · simp [hm, hh] at h1 h3; omega
      · simp [hm, hh] at h1 h3; omega

/-- **C4**: `crossChannelReplyCount` is the same whether or not dangling
targets are materialized — the toggle changes node materialization only,
never the count of dangling references. -/
theorem claim_C4 (messages : List TelegramMessage) :
    (buildReplyGraph messages false).crossChannelReplyCount
      = (buildReplyGraph messages true).crossChannelReplyCount :=
  (collect_counts_eq (buildMessageMap messages) false true (replyMessagesOf messages)
    { selfReplyCount := 0, crossChannelReplyCount := 0, nodeIds := [], edges := [] }
    { selfReplyCount := 0, crossChannelReplyCount := 0, nodeIds := [], edges := [] }
    rfl rfl).2

/-- **C9**: the number of output edges is `selfReplyCount` when cross-channel
replies are excluded, and `selfReplyCount + crossChannelReplyCount` when they
are included. -/
theorem claim_C9 (messages : List TelegramMessage) :
    (buildReplyGraph messages false).edges.length
        = (buildReplyGraph messages false).selfReplyCount
    ∧ (buildReplyGraph messages true).edges.length
        = (buildReplyGraph messages true).selfReplyCount
          + (buildReplyGraph messages true).crossChannelReplyCount := by
  constructor
  · have h := collect_len_false (buildMessageMap messages) (replyMessagesOf messages)
      { selfReplyCount := 0, crossChannelReplyCount := 0, nodeIds := [], edges := [] }
    show (collectStateOf messages false).edges.length
      = (collectStateOf messages false).selfReplyCount
    unfold collectStateOf
    simpa using h
  · have h := collect_len_true (buildMessageMap messages) (replyMessagesOf messages)
      { selfReplyCount := 0, crossChannelReplyCount := 0, nodeIds := [], edges := [] }
    show (collectStateOf messages true).edges.length
      = (collectStateOf messages true).selfReplyCount
        + (collectStateOf messages true).crossChannelReplyCount
    unfold collectStateOf
    simpa using h

/-- One collection step either leaves the node-id set and edge list alone,
or appends one edge and registers both its endpoints. -/
theorem collectStep_char (mm : List (Int × TelegramMessage)) (b : Bool)
    (s : CollectState) (m : TelegramMessage) :
    ((collectStep mm b s m).edges = s.edges ∧ (collectStep mm b s m).nodeIds = s.nodeIds)
    ∨ ∃ t, m.reply_to_message_id = some t
        ∧ (collectStep mm b s m).edges = s.edges ++ [{ source := t, target := m.id }]
        ∧ (collectStep mm b s m).nodeIds = setAdd (setAdd s.nodeIds m.id) t := by
  cases hm : m.reply_to_message_id with
  | none =>
    left
    constructor <;> simp [collectStep, hm]
  | some t =>
    cases hh : mapHas mm t with
    | true =>
      exact Or.inr ⟨t, rfl, by simp [collectStep, hm, hh], by simp [collectStep, hm, hh]⟩
    | false =>
      cases b with
      | false =>
        left
        constructor <;> simp [collectStep, hm, hh]
      | true =>
        exact Or.inr ⟨t, rfl, by simp [collectStep, hm, hh], by simp [collectStep, hm, hh]⟩

/-- One collection step keeps every edge endpoint inside the node-id set. -/
theorem collectStep_closed (mm : List (Int × TelegramMessage)) (b : Bool)
    (s : CollectState) (m : TelegramMessage)
    (h : ∀ e ∈ s.edges, e.source ∈ s.nodeIds ∧ e.target ∈ s.nodeIds) :
    ∀ e ∈ (collectStep mm b s m).edges,
      e.source ∈ (collectStep mm b s m).nodeIds
        ∧ e.target ∈ (collectStep mm b s m).nodeIds := by
  rcases collectStep_char mm b s m with ⟨he1, hn1⟩ | ⟨t, _, he1, hn1⟩
  · rw [he1, hn1]
    exact h
  · rw [he1, hn1]
    intro e he
    rcases List.mem_append.mp he with he | he
    · obtain ⟨hs, ht⟩ := h e he
      exact ⟨setAdd_mem_mono t (setAdd_mem_mono m.id hs),
        setAdd_mem_mono t (setAdd_mem_mono m.id ht)⟩
    · rw [List.mem_singleton] at he
      subst he
      exact ⟨setAdd_mem_self _ t, setAdd_mem_mono t (setAdd_mem_self s.nodeIds m.id)⟩

/-- The collection loop keeps every edge endpoint inside the node-id set. -/
theorem collect_closed (mm : List (Int × TelegramMessage)) (b : Bool)
    (msgs : List TelegramMessage) :
    ∀ s : CollectState,
      (∀ e ∈ s.edges, e.source ∈ s.nodeIds ∧ e.target ∈ s.nodeIds) →
      ∀ e ∈ (msgs.foldl (collectStep mm b) s).edges,
        e.source ∈ (msgs.foldl (collectStep mm b) s).nodeIds
          ∧ e.target ∈ (msgs.foldl (collectStep mm b) s).nodeIds := by
  induction msgs with
  | nil => intro s h; simpa using h
  | cons m ms ih =>
    intro s h
    simp only [List.foldl_cons]
    exact ih _ (collectStep_closed mm b s m h)

/-- The ids of the output nodes are exactly the registered node ids, in
registration order. -/
theorem finalNodes_map_id (extra : Nat) (messages : List TelegramMessage) (b : Bool) :
    (finalNodesOf extra messages b).map GraphNode.id
      = (collectStateOf messages b).nodeIds := by
  unfold finalNodesOf
  rw [List.map_map, List.map_map]
  exact List.map_id (collectStateOf messages b).nodeIds

/-- **C1**: every output edge's source and target ids appear among the ids
of the output node set (phantom nodes included). -/
theorem claim_C1 (messages : List TelegramMessage) (b : Bool) (e : GraphEdge)
    (he : e ∈ (buildReplyGraph messages b).edges) :
    e.source ∈ (buildReplyGraph messages b).nodes.map GraphNode.id
    ∧ e.target ∈ (buildReplyGraph messages b).nodes.map GraphNode.id := by
  have h := collect_closed (buildMessageMap messages) b (replyMessagesOf messages)
    { selfReplyCount := 0, crossChannelReplyCount := 0, nodeIds := [], edges := [] }
    (by simp) e he
  have hids : (buildReplyGraph messages b).nodes.map GraphNode.id
      = (collectStateOf messages b).nodeIds := finalNodes_map_id 0 messages b
  rw [hids]
  exact h

/-- Witness for **C1** on the included dangling-reference scenario. -/
theorem claim_C1_witness :
    (GraphEdge.mk 999 5) ∈ (buildReplyGraph danglingInput true).edges
    ∧ (999 : Int) ∈ (buildReplyGraph danglingInput true).nodes.map GraphNode.id
    ∧ (5 : Int) ∈ (buildReplyGraph danglingInput true).nodes.map GraphNode.id :=
  ⟨by decide, (claim_C1 danglingInput true (GraphEdge.mk 999 5) (by decide)).1,
    (claim_C1 danglingInput true (GraphEdge.mk 999 5) (by decide)).2⟩

/-- One collection step only adds edges whose target id is a key of the
message index. -/
theorem collectStep_target_has (mm : List (Int × TelegramMessage)) (b : Bool)
    (s : CollectState) (m : TelegramMessage) (hmid : mapHas mm m.id = true)
    (h : ∀ e ∈ s.edges, mapHas mm e.target = true) :
    ∀ e ∈ (collectStep mm b s m).edges, mapHas mm e.target = true := by
  rcases collectStep_char mm b s m with ⟨he1, _⟩ | ⟨t, _, he1, _⟩
  · rw [he1]
    exact h
  · rw [he1]
    intro e he
    rcases List.mem_append.mp he with he | he
    · exact h e he
    · rw [List.mem_singleton] at he
      subst he
      exact hmid

/-- The collection loop only emits edges whose target id is a key of the
message index. -/
theorem collect_target_has (mm : List (Int × TelegramMessage)) (b : Bool)
    (msgs : List TelegramMessage) (hall : ∀ m ∈ msgs, mapHas mm m.id = true) :
    ∀ s : CollectState, (∀ e ∈ s.edges, mapHas mm e.target = true) →
      ∀ e ∈ (msgs.foldl (collectStep mm b) s).edges, mapHas mm e.target = true := by
  induction msgs with
  | nil => intro s h; simpa using h
  | cons m ms ih =>
    intro s h
    simp only [List.foldl_cons]
    exact ih (fun m' hm' => hall m' (List.mem_cons_of_mem m hm')) _
      (collectStep_target_has mm b s m (hall m (List.mem_cons_self m ms)) h)

/-- A materialized node's phantom flag is the negated index membership of
its id. -/
theorem finalNodes_isForwardedReply (extra : Nat) (messages : List TelegramMessage)
    (b : Bool) (n : GraphNode) (hn : n ∈ finalNodesOf extra messages b) :
    n.isForwardedReply = !(mapHas (buildMessageMap messages) n.id) := by
  unfold finalNodesOf at hn
  rw [List.map_map] at hn
  rcases List.mem_map.mp hn with ⟨i, hi, rfl⟩
  rfl

/-- **C10**: a phantom node (one with `isForwardedReply = true`) never
appears as the target of any output edge. -/
theorem claim_C10 (messages : List TelegramMessage) (b : Bool) (n : GraphNode)
    (hn : n ∈ (buildReplyGraph messages b).nodes) (hfwd : n.isForwardedReply = true)
    (e : GraphEdge) (he : e ∈ (buildReplyGraph messages b).edges) :
    e.target ≠ n.id := by
  have hfl := finalNodes_isForwardedReply 0 messages b n hn
  have hfalse : mapHas (buildMessageMap messages) n.id = false := by
    rw [hfwd] at hfl
    simpa using hfl.symm
  have htgt : mapHas (buildMessageMap messages) e.target = true := by
    refine collect_target_has (buildMessageMap messages) b (replyMessagesOf messages)
      ?_ _ (by simp) e he
    intro m hm
    exact mapHas_buildMessageMap messages m.id ⟨m, (List.mem_filter.mp hm).1, rfl⟩
  intro hc
  rw [hc] at htgt
  rw [htgt] at hfalse
  cases hfalse

set_option maxRecDepth 100000 in
/-- Witness for **C10** on the included dangling-reference scenario: the
phantom node `999` is never an edge target. -/
theorem claim_C10_witness :
    ((buildReplyGraph danglingInput true).nodes.getD 1 defaultGraphNode)
        ∈ (buildReplyGraph danglingInput true).nodes
    ∧ ((buildReplyGraph danglingInput true).nodes.getD 1 defaultGraphNode).isForwardedReply
        = true
    ∧ (GraphEdge.mk 999 5) ∈ (buildReplyGraph danglingInput true).edges
    ∧ (GraphEdge.mk 999 5).target
        ≠ ((buildReplyGraph danglingInput true).nodes.getD 1 defaultGraphNode).id :=
  ⟨by decide, by decide, by decide,
    claim_C10 danglingInput true _ (by decide) (by decide) _ (by decide)⟩

/-! ## Lemmas on the BFS enqueue folds -/

/-- `contains` agrees with membership (true direction). -/
theorem contains_of_mem {l : List Int} {x : Int} (h : x ∈ l) : l.contains x = true :=
  List.elem_iff.mpr h

/-- `contains` agrees with membership (false direction). -/
theorem contains_of_not_mem {l : List Int} {x : Int} (h : x ∉ l) : l.contains x = false := by
  cases hc : l.contains x
  · rfl
  · exact absurd (List.elem_iff.mp hc) h

/-- The neighbor scan of the component BFS appends exactly the unvisited
neighbors (first occurrences) to both the queue and the visited set. -/
theorem bfsFold_eq (ns : List Int) :
    ∀ (q v : List Int),
      ns.foldl bfsStepFold (q, v) = (q ++ bfsNew ns v, v ++ bfsNew ns v) := by
  induction ns with
  | nil => intro q v; simp [bfsNew]
  | cons n rest ih =>
    intro q v
    simp only [List.foldl_cons]
    by_cases h : n ∈ v
    · rw [show bfsStepFold (q, v) n = (q, v) from by
        simp [bfsStepFold, contains_of_mem h, h]]
      rw [ih]
      simp [bfsNew, h]
    · rw [show bfsStepFold (q, v) n = (q ++ [n], v ++ [n]) from by
        simp [bfsStepFold, contains_of_not_mem h, h]]
      rw [ih]
      simp [bfsNew, h, List.append_assoc]

/-- Newly enqueued elements come from the scanned neighbor list. -/
theorem bfsNew_subset (ns : List Int) : ∀ (v : List Int), ∀ x ∈ bfsNew ns v, x ∈ ns := by
  induction ns with
  | nil => intro v x hx; simp [bfsNew] at hx
  | cons n rest ih =>
    intro v x hx
    simp only [bfsNew] at hx
    split at hx
    · exact List.mem_cons_of_mem n (ih v x hx)
    · rcases List.mem_cons.mp hx with rfl | hx
      · exact List.mem_cons_self x rest
      · exact List.mem_cons_of_mem n (ih (v ++ [n]) x hx)

/-- Newly enqueued elements were not previously visited. -/
theorem bfsNew_disjoint (ns : List Int) :
    ∀ (v : List Int), ∀ x ∈ bfsNew ns v, x ∉ v := by
  induction ns with
  | nil => intro v x hx; simp [bfsNew] at hx
  | cons n rest ih =>
    intro v x hx
    simp only [bfsNew] at hx
    split at hx
    · exact ih v x hx
    next hc =>
      rcases List.mem_cons.mp hx with rfl | hx
      · intro hxv
        rw [contains_of_mem hxv] at hc
        exact hc rfl
      · intro hxv
        exact ih (v ++ [n]) x hx (List.mem_append.mpr (Or.inl hxv))

/-- Newly enqueued elements are pairwise distinct. -/
theorem bfsNew_nodup (ns : List Int) : ∀ (v : List Int), (bfsNew ns v).Nodup := by
  induction ns with
  | nil => intro v; simp [bfsNew]
  | cons n rest ih =>
    intro v
    simp only [bfsNew]
    split
    · exact ih v
    · refine List.nodup_cons.mpr ⟨?_, ih (v ++ [n])⟩
      intro hmem
      exact bfsNew_disjoint rest (v ++ [n]) n hmem
        (List.mem_append.mpr (Or.inr (List.mem_singleton.mpr rfl)))

/-! ## Counting unexplored adjacency -/

/-- The count of unexplored occurrences is bounded by the list length. -/
theorem countNotIn_le_length (A : List Int) : ∀ (v : List Int), countNotIn A v ≤ A.length := by
  induction A with
  | nil => intro v; simp [countNotIn]
  | cons a rest ih =>
    intro v
    simp only [countNotIn, List.length_cons]
    have := ih v
    by_cases h : a ∈ v <;> simp [h] <;> omega

/-- Growing the visited set cannot increase the unexplored count. -/
theorem countNotIn_anti (A : List Int) :
    ∀ (v w : List Int), (∀ x, x ∈ v → x ∈ w) → countNotIn A w ≤ countNotIn A v := by
  induction A with
  | nil => intro v w _; simp [countNotIn]
  | cons a rest ih =>
    intro v w h
    have ihr := ih v w h
    simp only [countNotIn]
    by_cases hw : a ∈ w
    · by_cases hv : a ∈ v <;> simp [hw, hv] <;> omega
    · have hv : a ∉ v := fun hm => hw (h a hm)
      simp [hw, hv]
      omega

/-- Visiting one unexplored element of `A` strictly decreases the
unexplored count. -/
theorem countNotIn_insert (A : List Int) :
    ∀ (v : List Int) (a : Int), a ∈ A → a ∉ v →
      countNotIn A (v ++ [a]) + 1 ≤ countNotIn A v := by
  induction A with
  | nil => intro v a ha _; simp at ha
  | cons x rest ih =>
    intro v a ha hav
    simp only [countNotIn]
    rcases List.mem_cons.mp ha with rfl | ha
    · have h1 : a ∈ v ++ [a] := by simp
      have h2 := countNotIn_anti rest v (v ++ [a]) (fun y hy => by simp [hy])
      simp [h1, hav]
      omega
    · by_cases hxv : x ∈ v
      · have h1 : x ∈ v ++ [a] := by simp [hxv]
        have h2 := ih v a ha hav
        simp [hxv, h1]
        omega
      · by_cases hxa : x = a
        · subst hxa
          have h1 : x ∈ v ++ [x] := by simp
          have h2 := countNotIn_anti rest v (v ++ [x]) (fun y hy => by simp [hy])
          simp [h1, hxv]
          omega
        · have h1 : x ∉ v ++ [a] := by simp [hxv, hxa]
          have h2 := ih v a ha hav
          simp [hxv, h1]
          omega

/-- Visiting a batch of distinct unexplored elements of `A` decreases the
unexplored count by at least the batch size. -/
theorem countNotIn_grow (A : List Int) (add : List Int) :
    ∀ (v : List Int), add.Nodup → (∀ x ∈ add, x ∉ v) → (∀ x ∈ add, x ∈ A) →
      countNotIn A (v ++ add) + add.length ≤ countNotIn A v := by
  induction add with
  | nil => intro v _ _ _; simp
  | cons a rest ih =>
    intro v hnd hdisj hsub
    have h1 := countNotIn_insert A v a (hsub a (List.mem_cons_self a rest))
      (hdisj a (List.mem_cons_self a rest))
    have hnd' := (List.nodup_cons.mp hnd).2
    have hna := (List.nodup_cons.mp hnd).1
    have h2 := ih (v ++ [a]) hnd'
      (fun x hx => by
        intro hmem
        rcases List.mem_append.mp hmem with hm | hm
        · exact hdisj x (List.mem_cons_of_mem a hx) hm
        · rw [List.mem_singleton] at hm
          subst hm
          exact hna hx)
      (fun x hx => hsub x (List.mem_cons_of_mem a hx))
    have heq : v ++ a :: rest = (v ++ [a]) ++ rest := by simp
    rw [heq]
    simp only [List.length_cons]
    omega

/-- A neighbor list looked up in the adjacency map is contained in the
adjacency multiset. -/
theorem mapGet_getD_subset_adjValues (adj : List (Int × List Int)) (c : Int) :
    ∀ x ∈ (mapGet? adj c).getD [], x ∈ adjValues adj := by
  intro x hx
  unfold mapGet? at hx
  cases hf : adj.find? (fun p => p.1 == c) with
  | none => rw [hf] at hx; simp at hx
  | some p =>
    rw [hf] at hx
    simp at hx
    unfold adjValues
    rw [List.mem_flatten]
    exact ⟨p.2, List.mem_map.mpr ⟨p, List.mem_of_find?_eq_some hf, rfl⟩, hx⟩

/-! ## One step of the component BFS, and its invariants -/

/-- Unfolding one dequeue step of the component BFS. -/
theorem bfsLoop_cons (adj : List (Int × List Int)) (fuel : Nat) (current : Int)
    (rest visited acc : List Int) :
    bfsLoop adj (fuel + 1) (current :: rest) visited acc
      = bfsLoop adj fuel
          (rest ++ bfsNew ((mapGet? adj current).getD []) visited)
          (visited ++ bfsNew ((mapGet? adj current).getD []) visited)
          (acc ++ [current]) := by
  simp only [bfsLoop]
  rw [bfsFold_eq]

/-- Main invariant of the component BFS: started with enough fuel, it
collects a duplicate-free set of nodes disjoint from the previously
visited set, its final visited set is exactly the old one plus the
collected nodes, every collected node comes from the initial queue or the
adjacency lists, and every enqueued node is eventually collected. -/
theorem bfsLoop_spec (adj : List (Int × List Int)) :
    ∀ (fuel : Nat) (queue visited acc visitedPre : List Int),
      (∀ x, x ∈ visited ↔ x ∈ visitedPre ∨ x ∈ acc ∨ x ∈ queue) →
      (acc ++ queue).Nodup →
      (∀ x ∈ acc ++ queue, x ∉ visitedPre) →
      queue.length + countNotIn (adjValues adj) visited ≤ fuel →
      ((bfsLoop adj fuel queue visited acc).1.Nodup
        ∧ (∀ x, x ∈ (bfsLoop adj fuel queue visited acc).2
            ↔ x ∈ visitedPre ∨ x ∈ (bfsLoop adj fuel queue visited acc).1)
        ∧ (∀ x ∈ (bfsLoop adj fuel queue visited acc).1, x ∉ visitedPre)
        ∧ (∀ x ∈ (bfsLoop adj fuel queue visited acc).1,
            x ∈ acc ∨ x ∈ queue ∨ x ∈ adjValues adj)
        ∧ (∀ x ∈ acc ++ queue, x ∈ (bfsLoop adj fuel queue visited acc).1)) := by
  intro fuel
  induction fuel with
  | zero =>
    intro queue visited acc pre h1 h2 h3 h4
    have hq : queue = [] := List.length_eq_zero.mp (by omega)
    subst hq
    simp only [bfsLoop]
    refine ⟨by simpa using h2, ?_, ?_, fun x hx => Or.inl hx, fun x hx => by simpa using hx⟩
    · intro x
      have := h1 x
      simpa using this
    · intro x hx
      exact h3 x (by simpa using hx)
  | succ f ih =>
    intro queue visited acc pre h1 h2 h3 h4
    cases queue with
    | nil =>
      simp only [bfsLoop]
      refine ⟨by simpa using h2, ?_, ?_, fun x hx => Or.inl hx, fun x hx => by simpa using hx⟩
      · intro x
        have := h1 x
        simpa using this
      · intro x hx
        exact h3 x (by simpa using hx)
    | cons current rest =>
      rw [bfsLoop_cons]
      set ns := (mapGet? adj current).getD [] with hns
      set N := bfsNew ns visited with hN
      have hNsub : ∀ x ∈ N, x ∈ ns := bfsNew_subset ns visited
      have hNdisj : ∀ x ∈ N, x ∉ visited := bfsNew_disjoint ns visited
      have hNnd : N.Nodup := bfsNew_nodup ns visited
      have hNadj : ∀ x ∈ N, x ∈ adjValues adj := fun x hx =>
        mapGet_getD_subset_adjValues adj current x (hNsub x hx)
      have hpresub : ∀ x, x ∈ pre → x ∈ visited := fun x hx => (h1 x).mpr (Or.inl hx)
      have h1' : ∀ x, x ∈ visited ++ N
          ↔ x ∈ pre ∨ x ∈ acc ++ [current] ∨ x ∈ rest ++ N := by
        intro x
        have hx := h1 x
        simp only [List.mem_append, List.mem_singleton, List.mem_cons] at hx ⊢
        tauto
      have h2' : ((acc ++ [current]) ++ (rest ++ N)).Nodup := by
        have hdisj : (acc ++ current :: rest).Disjoint N := by
          intro x hx hxN
          rcases List.mem_append.mp hx with hx | hx
          · exact hNdisj x hxN ((h1 x).mpr (Or.inr (Or.inl hx)))
          · exact hNdisj x hxN ((h1 x).mpr (Or.inr (Or.inr hx)))
        have := List.Nodup.append h2 hNnd hdisj
        simpa [List.append_assoc] using this
      have h3' : ∀ x ∈ (acc ++ [current]) ++ (rest ++ N), x ∉ pre := by
        intro x hx
        rcases List.mem_append.mp hx with hx | hx
        · rcases List.mem_append.mp hx with hx | hx
          · exact h3 x (List.mem_append.mpr (Or.inl hx))
          · rw [List.mem_singleton] at hx
            subst hx
            exact h3 _ (List.mem_append.mpr (Or.inr (List.mem_cons_self _ _)))
        · rcases List.mem_append.mp hx with hx | hx
          · exact h3 x (List.mem_append.mpr (Or.inr (List.mem_cons_of_mem _ hx)))
          · intro hpre
            exact hNdisj x hx (hpresub x hpre)
      have h4' : (rest ++ N).length + countNotIn (adjValues adj) (visited ++ N) ≤ f := by
        have hgrow := countNotIn_grow (adjValues adj) N visited hNnd hNdisj hNadj
        simp only [List.length_append, List.length_cons] at h4 ⊢
        omega
      obtain ⟨c1, c2, c3, c4, c5⟩ :=
        ih (rest ++ N) (visited ++ N) (acc ++ [current]) pre h1' h2' h3' h4'
      refine ⟨c1, c2, c3, ?_, ?_⟩
      · intro x hx
        rcases c4 x hx with hx2 | hx2 | hx2
        · rcases List.mem_append.mp hx2 with h | h
          · exact Or.inl h
          · rw [List.mem_singleton] at h
            subst h
            exact Or.inr (Or.inl (List.mem_cons_self _ _))
        · rcases List.mem_append.mp hx2 with h | h
          · exact Or.inr (Or.inl (List.mem_cons_of_mem _ h))
          · exact Or.inr (Or.inr (hNadj x h))
        · exact Or.inr (Or.inr hx2)
      · intro x hx
        apply c5
        rcases List.mem_append.mp hx with h | h
        · exact List.mem_append.mpr (Or.inl (List.mem_append.mpr (Or.inl h)))
        · rcases List.mem_cons.mp h with rfl | h
          · exact List.mem_append.mpr
              (Or.inl (List.mem_append.mpr (Or.inr (List.mem_singleton.mpr rfl))))
          · exact List.mem_append.mpr (Or.inr (List.mem_append.mpr (Or.inl h)))

/-- With sufficient fuel, extra fuel does not change the component BFS:
the loop reaches its empty-queue exit before the cut-off. -/
theorem bfsLoop_fuel_add (adj : List (Int × List Int)) :
    ∀ (fuel extra : Nat) (queue visited acc : List Int),
      queue.length + countNotIn (adjValues adj) visited ≤ fuel →
      bfsLoop adj (fuel + extra) queue visited acc = bfsLoop adj fuel queue visited acc := by
  intro fuel
  induction fuel with
  | zero =>
    intro extra queue visited acc h
    have hq : queue = [] := List.length_eq_zero.mp (by omega)
    subst hq
    cases extra with
    | zero => rfl
    | succ e =>
      show bfsLoop adj (0 + (e + 1)) [] visited acc = _
      rw [Nat.zero_add]
      rfl
  | succ f ih =>
    intro extra queue visited acc h
    cases queue with
    | nil =>
      have he : f + 1 + extra = (f + extra) + 1 := by omega
      rw [he]
      rfl
    | cons current rest =>
      have he : f + 1 + extra = (f + extra) + 1 := by omega
      rw [he, bfsLoop_cons, bfsLoop_cons]
      apply ih
      set ns := (mapGet? adj current).getD [] with hns
      set N := bfsNew ns visited with hN
      have hNsub : ∀ x ∈ N, x ∈ ns := bfsNew_subset ns visited
      have hNdisj : ∀ x ∈ N, x ∉ visited := bfsNew_disjoint ns visited
      have hNnd : N.Nodup := bfsNew_nodup ns visited
      have hNadj : ∀ x ∈ N, x ∈ adjValues adj := fun x hx =>
        mapGet_getD_subset_adjValues adj current x (hNsub x hx)
      have hgrow := countNotIn_grow (adjValues adj) N visited hNnd hNdisj hNadj
      simp only [List.length_append, List.length_cons] at h ⊢
      omega

/-! ## The depth BFS: enqueue characterization and fuel -/

/-- The edge scan of the depth BFS appends exactly the unvisited targets
of edges leaving the dequeued node, one level deeper. -/
theorem depthFold_eq (es : List GraphEdge) :
    ∀ (cid : Int) (d : Nat) (q : List (Int × Nat)) (v : List Int),
      es.foldl (depthStepFold cid d) (q, v)
        = (q ++ (depthNew es cid v).map (fun t => (t, d + 1)), v ++ depthNew es cid v) := by
  induction es with
  | nil => intro cid d q v; simp [depthNew]
  | cons e rest ih =>
    intro cid d q v
    simp only [List.foldl_cons]
    by_cases hs : e.source = cid
    · by_cases ht : e.target ∈ v
      · rw [show depthStepFold cid d (q, v) e = (q, v) from by
          simp [depthStepFold, hs, contains_of_mem ht, ht]]
        rw [ih]
        simp [depthNew, hs, contains_of_mem ht, ht]
      · rw [show depthStepFold cid d (q, v) e
            = (q ++ [(e.target, d + 1)], v ++ [e.target]) from by
          simp [depthStepFold, hs, contains_of_not_mem ht, ht]]
        rw [ih]
        simp [depthNew, hs, contains_of_not_mem ht, ht, List.append_assoc]
    · rw [show depthStepFold cid d (q, v) e = (q, v) from by
        simp [depthStepFold, hs]]
      rw [ih]
      simp [depthNew, hs]

/-- Targets enqueued by the depth BFS come from the edge list. -/
theorem depthNew_subset (es : List GraphEdge) :
    ∀ (cid : Int) (v : List Int), ∀ x ∈ depthNew es cid v,
      x ∈ es.map (fun e => e.target) := by
  induction es with
  | nil => intro cid v x hx; simp [depthNew] at hx
  | cons e rest ih =>
    intro cid v x hx
    simp only [depthNew] at hx
    split at hx
    · rcases List.mem_cons.mp hx with rfl | hx
      · simp
      · simp only [List.map_cons]
        exact List.mem_cons_of_mem _ (ih cid (v ++ [e.target]) x hx)
    · simp only [List.map_cons]
      exact List.mem_cons_of_mem _ (ih cid v x hx)

/-- Targets enqueued by the depth BFS were not previously visited. -/
theorem depthNew_disjoint (es : List GraphEdge) :
    ∀ (cid : Int) (v : List Int), ∀ x ∈ depthNew es cid v, x ∉ v := by
  induction es with
  | nil => intro cid v x hx; simp [depthNew] at hx
  | cons e rest ih =>
    intro cid v x hx
    simp only [depthNew] at hx
    split at hx
    next hc =>
      rcases List.mem_cons.mp hx with rfl | hx
      · intro hxv
        rw [contains_of_mem hxv] at hc
        simp at hc
      · intro hxv
        exact ih cid (v ++ [e.target]) x hx (List.mem_append.mpr (Or.inl hxv))
    · exact ih cid v x hx

/-- Targets enqueued by the depth BFS are pairwise distinct. -/
theorem depthNew_nodup (es : List GraphEdge) :
    ∀ (cid : Int) (v : List Int), (depthNew es cid v).Nodup := by
  induction es with
  | nil => intro cid v; simp [depthNew]
  | cons e rest ih =>
    intro cid v
    simp only [depthNew]
    split
    · refine List.nodup_cons.mpr ⟨?_, ih cid (v ++ [e.target])⟩
      intro hmem
      exact depthNew_disjoint rest cid (v ++ [e.target]) e.target hmem (by simp)
    · exact ih cid v

/-- Unfolding one dequeue step of the depth BFS. -/
theorem depthBfs_cons (es : List GraphEdge) (fuel : Nat) (cid : Int) (d : Nat)
    (rest : List (Int × Nat)) (v : List Int) (maxDepth : Nat) :
    depthBfs es (fuel + 1) ((cid, d) :: rest) v maxDepth
      = depthBfs es fuel (rest ++ (depthNew es cid v).map (fun t => (t, d + 1)))
          (v ++ depthNew es cid v) (max maxDepth d) := by
  simp only [depthBfs]
  rw [depthFold_eq]

/-- With sufficient fuel, extra fuel does not change the depth BFS. -/
theorem depthBfs_fuel_add (es : List GraphEdge) :
    ∀ (fuel extra : Nat) (queue : List (Int × Nat)) (v : List Int) (m : Nat),
      queue.length + countNotIn (es.map (fun e => e.target)) v ≤ fuel →
      depthBfs es (fuel + extra) queue v m = depthBfs es fuel queue v m := by
  intro fuel
  induction fuel with
  | zero =>
    intro extra queue v m h
    have hq : queue = [] := List.length_eq_zero.mp (by omega)
    subst hq
    cases extra with
    | zero => rfl
    | succ e =>
      show depthBfs es (0 + (e + 1)) [] v m = _
      rw [Nat.zero_add]
      rfl
  | succ f ih =>
    intro extra queue v m h
    cases queue with
    | nil =>
      have he : f + 1 + extra = (f + extra) + 1 := by omega
      rw [he]
      rfl
    | cons p rest =>
      obtain ⟨cid, d⟩ := p
      have he : f + 1 + extra = (f + extra) + 1 := by omega
      rw [he, depthBfs_cons, depthBfs_cons]
      apply ih
      have hsub := depthNew_subset es cid v
      have hdisj := depthNew_disjoint es cid v
      have hnd := depthNew_nodup es cid v
      have hgrow := countNotIn_grow (es.map (fun e => e.target)) (depthNew es cid v) v
        hnd hdisj hsub
      simp only [List.length_append, List.length_cons, List.length_map] at h ⊢
      omega

/-! ## Bounding the adjacency multiset -/

/-- `adjValues` of a cons. -/
theorem adjValues_cons (p : Int × List Int) (rest : List (Int × List Int)) :
    adjValues (p :: rest) = p.2 ++ adjValues rest := by
  simp [adjValues]

/-- Pushing a neighbor does not change the key list. -/
theorem mapPush_keys (m : List (Int × List Int)) (k v : Int) :
    (mapPush m k v).map Prod.fst = m.map Prod.fst := by
  unfold mapPush
  rw [List.map_map]
  apply List.map_congr_left
  intro p _
  by_cases hh : p.1 = k <;> simp [hh, Function.comp]

/-- Pushing onto an absent key is a no-op. -/
theorem mapPush_no_key (m : List (Int × List Int)) (k v : Int)
    (hk : k ∉ m.map Prod.fst) : mapPush m k v = m := by
  unfold mapPush
  conv_rhs => rw [← List.map_id m]
  apply List.map_congr_left
  intro p hp
  have hne : p.1 ≠ k := fun hh => hk (List.mem_map.mpr ⟨p, hp, hh⟩)
  simp [hne]

/-- With duplicate-free keys, one push grows the adjacency multiset by at
most one element. -/
theorem adjValues_mapPush_le (m : List (Int × List Int)) (k v : Int)
    (hnd : (m.map Prod.fst).Nodup) :
    (adjValues (mapPush m k v)).length ≤ (adjValues m).length + 1 := by
  induction m with
  | nil => simp [mapPush, adjValues]
  | cons p rest ih =>
    have hnd' : (rest.map Prod.fst).Nodup := (List.nodup_cons.mp (by simpa using hnd)).2
    have hpk : p.1 ∉ rest.map Prod.fst := (List.nodup_cons.mp (by simpa using hnd)).1
    by_cases h : p.1 = k
    · have hrest : mapPush rest k v = rest := mapPush_no_key rest k v (h ▸ hpk)
      show (adjValues ((if p.1 == k then (p.1, p.2 ++ [v]) else p) :: mapPush rest k v)).length
        ≤ (adjValues (p :: rest)).length + 1
      rw [hrest, adjValues_cons, adjValues_cons]
      simp only [h, beq_self_eq_true, if_true, List.length_append, List.length_cons,
        List.length_nil]
      omega
    · show (adjValues ((if p.1 == k then (p.1, p.2 ++ [v]) else p) :: mapPush rest k v)).length
        ≤ (adjValues (p :: rest)).length + 1
      rw [adjValues_cons, adjValues_cons]
      have := ih hnd'
      simp only [List.length_append]
      have hif : (if p.1 == k then (p.1, p.2 ++ [v]) else p) = p := by simp [h]
      rw [hif]
      omega

/-- An entry of `mapSet` is an old entry or the written pair. -/
theorem mem_mapSet {α : Type} {m : List (Int × α)} {k : Int} {v : α} {p : Int × α}
    (hp : p ∈ mapSet m k v) : p ∈ m ∨ p = (k, v) := by
  unfold mapSet at hp
  split at hp
  · rcases List.mem_map.mp hp with ⟨q, hq, rfl⟩
    by_cases h : q.1 = k
    · right
      simp [h]
    · left
      simpa [h] using hq
  · rcases List.mem_append.mp hp with h | h
    · exact Or.inl h
    · right
      simpa using h

/-- `mapSet` preserves duplicate-free keys. -/
theorem mapSet_keys_nodup {α : Type} (m : List (Int × α)) (k : Int) (v : α)
    (hnd : (m.map Prod.fst).Nodup) : ((mapSet m k v).map Prod.fst).Nodup := by
  unfold mapSet
  split
  next hk =>
    rw [List.map_map]
    have heq : m.map (Prod.fst ∘ fun p => if p.1 == k then (k, v) else p)
        = m.map Prod.fst := by
      apply List.map_congr_left
      intro p _
      by_cases h : p.1 = k <;> simp [h, Function.comp]
    rw [heq]
    exact hnd
  next hk =>
    rw [List.map_append]
    have hkmem : k ∉ m.map Prod.fst := by
      intro hmem
      apply hk
      rcases List.mem_map.mp hmem with ⟨p, hp, hpk⟩
      exact List.any_eq_true.mpr ⟨p, hp, by simp [hpk]⟩
    simp [List.nodup_append, hnd, hkmem]

/-- The initial adjacency map has duplicate-free keys. -/
theorem init_adj_keys_nodup (ids : List Int) :
    ∀ (acc : List (Int × List Int)), (acc.map Prod.fst).Nodup →
      ((ids.foldl (fun a i => mapSet a i ([] : List Int)) acc).map Prod.fst).Nodup := by
  induction ids with
  | nil => intro acc h; exact h
  | cons i rest ih =>
    intro acc h
    simp only [List.foldl_cons]
    exact ih _ (mapSet_keys_nodup acc i [] h)

/-- The initial adjacency map stores only empty neighbor lists. -/
theorem init_adj_values_nil (ids : List Int) :
    ∀ (acc : List (Int × List Int)), (∀ p ∈ acc, p.2 = ([] : List Int)) →
      ∀ p ∈ ids.foldl (fun a i => mapSet a i ([] : List Int)) acc, p.2 = ([] : List Int) := by
  induction ids with
  | nil => intro acc h; exact h
  | cons i rest ih =>
    intro acc h
    simp only [List.foldl_cons]
    refine ih _ ?_
    intro p hp
    rcases mem_mapSet hp with hp | rfl
    · exact h p hp
    · rfl

/-- A map with only empty neighbor lists has an empty adjacency multiset. -/
theorem adjValues_len_zero (m : List (Int × List Int))
    (h : ∀ p ∈ m, p.2 = ([] : List Int)) : (adjValues m).length = 0 := by
  induction m with
  | nil => simp [adjValues]
  | cons p rest ih =>
    rw [adjValues_cons]
    simp only [List.length_append]
    have h1 := h p (List.mem_cons_self p rest)
    have h2 := ih (fun q hq => h q (List.mem_cons_of_mem p hq))
    simp [h1, h2]

/-- The adjacency multiset built by the builder has at most two entries
per edge. -/
theorem adjValues_buildAdj_le (ids : List Int) (eds : List GraphEdge) :
    (adjValues (buildAdj ids eds)).length ≤ 2 * eds.length := by
  unfold buildAdj
  dsimp only
  have hinitkeys : ((ids.foldl (fun a i => mapSet a i ([] : List Int)) []).map Prod.fst).Nodup :=
    init_adj_keys_nodup ids [] (by simp)
  have hinitvals : (adjValues (ids.foldl (fun a i => mapSet a i ([] : List Int)) [])).length = 0 :=
    adjValues_len_zero _ (init_adj_values_nil ids [] (by simp))
  suffices hgen : ∀ (eds : List GraphEdge) (acc : List (Int × List Int)),
      (acc.map Prod.fst).Nodup →
      (adjValues (eds.foldl
          (fun a e => mapPush (mapPush a e.source e.target) e.target e.source) acc)).length
        ≤ (adjValues acc).length + 2 * eds.length by
    have := hgen eds _ hinitkeys
    omega
  intro eds
  induction eds with
  | nil => intro acc _; simp
  | cons e rest ih =>
    intro acc h
    simp only [List.foldl_cons]
    have hkeys1 : ((mapPush acc e.source e.target).map Prod.fst).Nodup := by
      rw [mapPush_keys]
      exact h
    have hkeys2 : ((mapPush (mapPush acc e.source e.target) e.target e.source).map
        Prod.fst).Nodup := by
      rw [mapPush_keys, mapPush_keys]
      exact h
    have h2 := ih _ hkeys2
    have h3 := adjValues_mapPush_le acc e.source e.target h
    have h4 := adjValues_mapPush_le (mapPush acc e.source e.target) e.target e.source hkeys1
    simp only [List.length_cons]
    omega

/-! ## Fuel independence of the builder -/

/-- Any two sufficient fuels give the same component BFS result. -/
theorem bfsLoop_fuel_eq (adj : List (Int × List Int)) (f₁ f₂ : Nat)
    (queue visited acc : List Int)
    (h₁ : queue.length + countNotIn (adjValues adj) visited ≤ f₁)
    (h₂ : queue.length + countNotIn (adjValues adj) visited ≤ f₂) :
    bfsLoop adj f₁ queue visited acc = bfsLoop adj f₂ queue visited acc := by
  have e₁ : f₁ = (queue.length + countNotIn (adjValues adj) visited)
      + (f₁ - (queue.length + countNotIn (adjValues adj) visited)) := by omega
  have e₂ : f₂ = (queue.length + countNotIn (adjValues adj) visited)
      + (f₂ - (queue.length + countNotIn (adjValues adj) visited)) := by omega
  rw [e₁, e₂, bfsLoop_fuel_add adj _ _ queue visited acc (le_refl _),
    bfsLoop_fuel_add adj _ _ queue visited acc (le_refl _)]

/-- Any two sufficient fuels give the same depth BFS result. -/
theorem depthBfs_fuel_eq (es : List GraphEdge) (f₁ f₂ : Nat)
    (queue : List (Int × Nat)) (v : List Int) (m : Nat)
    (h₁ : queue.length + countNotIn (es.map (fun e => e.target)) v ≤ f₁)
    (h₂ : queue.length + countNotIn (es.map (fun e => e.target)) v ≤ f₂) :
    depthBfs es f₁ queue v m = depthBfs es f₂ queue v m := by
  have e₁ : f₁ = (queue.length + countNotIn (es.map (fun e => e.target)) v)
      + (f₁ - (queue.length + countNotIn (es.map (fun e => e.target)) v)) := by omega
  have e₂ : f₂ = (queue.length + countNotIn (es.map (fun e => e.target)) v)
      + (f₂ - (queue.length + countNotIn (es.map (fun e => e.target)) v)) := by omega
  rw [e₁, e₂, depthBfs_fuel_add es _ _ queue v m (le_refl _),
    depthBfs_fuel_add es _ _ queue v m (le_refl _)]

/-- One chain-discovery step is unchanged by the choice of (sufficient)
fuel. -/
theorem discoverStep_fuel_eq (adj : List (Int × List Int)) (edges : List GraphEdge)
    (f₁ f₂ : Nat)
    (ha₁ : 1 + (adjValues adj).length ≤ f₁) (he₁ : 1 + edges.length ≤ f₁)
    (ha₂ : 1 + (adjValues adj).length ≤ f₂) (he₂ : 1 + edges.length ≤ f₂)
    (st : DiscoverState) (startId : Int) :
    discoverStep adj edges f₁ st startId = discoverStep adj edges f₂ st startId := by
  unfold discoverStep
  by_cases hv : st.visited.contains startId = true
  · rw [if_pos hv, if_pos hv]
  · rw [if_neg hv, if_neg hv]
    have hbfs : bfsLoop adj f₁ [startId] (st.visited ++ [startId]) []
        = bfsLoop adj f₂ [startId] (st.visited ++ [startId]) [] := by
      have hc := countNotIn_le_length (adjValues adj) (st.visited ++ [startId])
      have hq : ([startId] : List Int).length = 1 := rfl
      apply bfsLoop_fuel_eq adj f₁ f₂ _ _ _ <;> omega
    have hdep : buildPreChain edges f₁ (st.chainCounter + 1)
          (bfsLoop adj f₂ [startId] (st.visited ++ [startId]) []).1
        = buildPreChain edges f₂ (st.chainCounter + 1)
          (bfsLoop adj f₂ [startId] (st.visited ++ [startId]) []).1 := by
      unfold buildPreChain
      have hlen : (chainEdgesOf edges
          (bfsLoop adj f₂ [startId] (st.visited ++ [startId]) []).1).length
          ≤ edges.length := List.length_filter_le _ _
      have hc := countNotIn_le_length ((chainEdgesOf edges
        (bfsLoop adj f₂ [startId] (st.visited ++ [startId]) []).1).map
          (fun e => e.target))
        [rootOf (bfsLoop adj f₂ [startId] (st.visited ++ [startId]) []).1
          (chainEdgesOf edges (bfsLoop adj f₂ [startId] (st.visited ++ [startId]) []).1)]
      rw [List.length_map] at hc
      have hdeq := depthBfs_fuel_eq (chainEdgesOf edges
          (bfsLoop adj f₂ [startId] (st.visited ++ [startId]) []).1) f₁ f₂
        [((rootOf (bfsLoop adj f₂ [startId] (st.visited ++ [startId]) []).1
            (chainEdgesOf edges (bfsLoop adj f₂ [startId] (st.visited ++ [startId]) []).1)),
          (0 : Nat))]
        [rootOf (bfsLoop adj f₂ [startId] (st.visited ++ [startId]) []).1
          (chainEdgesOf edges (bfsLoop adj f₂ [startId] (st.visited ++ [startId]) []).1)] 0
        (by simp only [List.length_cons, List.length_nil]; omega)
        (by simp only [List.length_cons, List.length_nil]; omega)
      rw [hdeq]
    rw [hbfs, hdep]

/-- Folding with pointwise-equal step functions gives equal results. -/
theorem foldl_congr_steps {β γ : Type} (step₁ step₂ : β → γ → β) (l : List γ)
    (h : ∀ st x, step₁ st x = step₂ st x) :
    ∀ init : β, l.foldl step₁ init = l.foldl step₂ init := by
  induction l with
  | nil => intro init; rfl
  | cons a rest ih =>
    intro init
    simp only [List.foldl_cons]
    rw [h init a]
    exact ih _

/-- The chain discovery of the builder does not depend on slack fuel. -/
theorem discoverOf_fuel (extraFuel : Nat) (messages : List TelegramMessage) (b : Bool) :
    discoverOf extraFuel messages b = discoverOf 0 messages b := by
  have hadj := adjValues_buildAdj_le (collectStateOf messages b).nodeIds
    (collectStateOf messages b).edges
  unfold discoverOf
  apply foldl_congr_steps
  intro st s
  apply discoverStep_fuel_eq
  · unfold fuelOf
    unfold adjOf at hadj ⊢
    omega
  · unfold fuelOf
    omega
  · unfold fuelOf
    unfold adjOf at hadj ⊢
    omega
  · unfold fuelOf
    omega

/-- **C7**: `buildReplyGraph` terminates on every input, self-replies and
reply cycles included: both the component-discovery BFS and the root/depth
BFS reach their queue-empty exit within the builder's fuel bound, so
granting any additional fuel leaves the result unchanged (the visited-set
guard, not the fuel cut-off, stops the loops). -/
theorem claim_C7 (extraFuel : Nat) (messages : List TelegramMessage) (b : Bool) :
    buildReplyGraphAux extraFuel messages b = buildReplyGraph messages b := by
  have hdisc := discoverOf_fuel extraFuel messages b
  unfold buildReplyGraph buildReplyGraphAux chainsOf finalNodesOf
  rw [hdisc]

/-! ## Toward the chain partition -/

/-- The collection loop preserves duplicate-freeness of the node-id set. -/
theorem collect_nodeIds_nodup (mm : List (Int × TelegramMessage)) (b : Bool)
    (msgs : List TelegramMessage) :
    ∀ s : CollectState, s.nodeIds.Nodup → (msgs.foldl (collectStep mm b) s).nodeIds.Nodup := by
  induction msgs with
  | nil => intro s h; exact h
  | cons m ms ih =>
    intro s h
    simp only [List.foldl_cons]
    apply ih
    rcases collectStep_char mm b s m with ⟨_, hn⟩ | ⟨t, _, _, hn⟩
    · rw [hn]; exact h
    · rw [hn]; exact setAdd_nodup (setAdd_nodup h m.id) t

/-- The registered node ids are duplicate-free. -/
theorem collectStateOf_nodeIds_nodup (messages : List TelegramMessage) (b : Bool) :
    (collectStateOf messages b).nodeIds.Nodup :=
  collect_nodeIds_nodup (buildMessageMap messages) b (replyMessagesOf messages)
    { selfReplyCount := 0, crossChannelReplyCount := 0, nodeIds := [], edges := [] }
    (by simp)

/-- An element of the adjacency multiset after a push is an old element or
the pushed value. -/
theorem mem_adjValues_mapPush (m : List (Int × List Int)) (k v x : Int)
    (hx : x ∈ adjValues (mapPush m k v)) : x ∈ adjValues m ∨ x = v := by
  unfold adjValues mapPush at hx
  rw [List.map_map, List.mem_flatten] at hx
  rcases hx with ⟨l, hl, hxl⟩
  rcases List.mem_map.mp hl with ⟨p, hp, rfl⟩
  by_cases h : p.1 = k
  · have heq : (Prod.snd ∘ fun p => if p.1 == k then (p.1, p.2 ++ [v]) else p) p
        = p.2 ++ [v] := by simp [h]
    rw [heq] at hxl
    rcases List.mem_append.mp hxl with hxl | hxl
    · left
      unfold adjValues
      rw [List.mem_flatten]
      exact ⟨p.2, List.mem_map.mpr ⟨p, hp, rfl⟩, hxl⟩
    · right
      simpa using hxl
  · have heq : (Prod.snd ∘ fun p => if p.1 == k then (p.1, p.2 ++ [v]) else p) p
        = p.2 := by simp [h]
    rw [heq] at hxl
    left
    unfold adjValues
    rw [List.mem_flatten]
    exact ⟨p.2, List.mem_map.mpr ⟨p, hp, rfl⟩, hxl⟩

/-- Every element of the builder's adjacency multiset is an endpoint of
some edge. -/
theorem adjValues_buildAdj_endpoints (ids : List Int) (eds : List GraphEdge) :
    ∀ x ∈ adjValues (buildAdj ids eds), ∃ e ∈ eds, x = e.source ∨ x = e.target := by
  unfold buildAdj
  dsimp only
  suffices hgen : ∀ (eds2 : List GraphEdge) (acc : List (Int × List Int)),
      ∀ x ∈ adjValues (eds2.foldl
          (fun a e => mapPush (mapPush a e.source e.target) e.target e.source) acc),
        x ∈ adjValues acc ∨ ∃ e ∈ eds2, x = e.source ∨ x = e.target by
    intro x hx
    rcases hgen eds _ x hx with hx | hx
    · exfalso
      have h0 := adjValues_len_zero _ (init_adj_values_nil ids [] (by simp))
      have hnil := List.length_eq_zero.mp h0
      rw [hnil] at hx
      simp at hx
    · exact hx
  intro eds2
  induction eds2 with
  | nil => intro acc x hx; exact Or.inl hx
  | cons e rest ih =>
    intro acc x hx
    simp only [List.foldl_cons] at hx
    rcases ih _ x hx with hx2 | ⟨f, hf, hor⟩
    · rcases mem_adjValues_mapPush _ _ _ _ hx2 with hx3 | rfl
      · rcases mem_adjValues_mapPush _ _ _ _ hx3 with hx4 | rfl
        · exact Or.inl hx4
        · exact Or.inr ⟨e, List.mem_cons_self e rest, Or.inr rfl⟩
      · exact Or.inr ⟨e, List.mem_cons_self e rest, Or.inl rfl⟩
    · exact Or.inr ⟨f, List.mem_cons_of_mem e hf, hor⟩

/-- With disjoint chains, `chainIdOf` returns the id of the chain that
contains the node. -/
theorem chainIdOf_eq (pre : List PreChain)
    (hnd : (pre.flatMap (fun pc => pc.nodeIds)).Nodup) :
    ∀ pc ∈ pre, ∀ i ∈ pc.nodeIds, chainIdOf pre i = pc.id := by
  induction pre with
  | nil => intro pc hpc; simp at hpc
  | cons q rest ih =>
    intro pc hpc i hi
    have hnd2 : (q.nodeIds ++ rest.flatMap (fun pc => pc.nodeIds)).Nodup := by
      simpa [List.flatMap_cons] using hnd
    have hdisj : ∀ x ∈ q.nodeIds, x ∉ rest.flatMap (fun pc => pc.nodeIds) :=
      fun x hx => (List.nodup_append.mp hnd2).2.2 hx
    rcases List.mem_cons.mp hpc with rfl | hpc
    · unfold chainIdOf
      rw [List.find?_cons_of_pos]
      exact contains_of_mem hi
    · have himem : i ∈ rest.flatMap (fun pc => pc.nodeIds) :=
        List.mem_flatMap.mpr ⟨pc, hpc, hi⟩
      have hnq : i ∉ q.nodeIds := fun hq => hdisj i hq himem
      have hrec := ih (List.nodup_append.mp hnd2).2.1 pc hpc i hi
      unfold chainIdOf
      rw [List.find?_cons_of_neg]
      · exact hrec
      · rw [contains_of_not_mem hnq]
        simp

/-- Looking a mapped node list up by id finds the image of the id. -/
theorem findNode_map (f : Int → GraphNode) (hf : ∀ j, (f j).id = j) :
    ∀ (ids : List Int) (i : Int), i ∈ ids →
      (ids.map f).find? (fun n => n.id == i) = some (f i) := by
  intro ids
  induction ids with
  | nil => intro i hi; simp at hi
  | cons j rest ih =>
    intro i hi
    simp only [List.map_cons]
    by_cases hj : j = i
    · subst hj
      rw [List.find?_cons_of_pos]
      simp [hf]
    · rw [List.find?_cons_of_neg]
      · refine ih i ?_
        rcases List.mem_cons.mp hi with rfl | h
        · exact absurd rfl hj
        · exact h
      · simp [hf, hj]

/-- The materialized node list, as one map over the registered ids. -/
theorem finalNodesOf_eq_map (extra : Nat) (messages : List TelegramMessage) (b : Bool) :
    finalNodesOf extra messages b
      = (collectStateOf messages b).nodeIds.map (fun i =>
          { mkGraphNode (buildMessageMap messages) i with
            chainId := chainIdOf (discoverOf extra messages b).pre i }) := by
  unfold finalNodesOf
  rw [List.map_map]
  rfl

/-- `nodeMap.get(id)` finds the unique materialized node with that id. -/
theorem findNode_finalNodesOf (extra : Nat) (messages : List TelegramMessage) (b : Bool)
    (i : Int) (hi : i ∈ (collectStateOf messages b).nodeIds) :
    findNode (finalNodesOf extra messages b) i
      = some ({ mkGraphNode (buildMessageMap messages) i with
                chainId := chainIdOf (discoverOf extra messages b).pre i }) := by
  rw [finalNodesOf_eq_map]
  exact findNode_map _ (fun j => rfl) _ i hi

/-- Flatten of a map-of-maps as a mapped flat-map. -/
theorem flatten_map_map {α β γ : Type} (l : List α) (g : α → List β) (F : β → γ) :
    (l.map (fun a => (g a).map F)).flatten = (l.flatMap g).map F := by
  induction l with
  | nil => simp
  | cons a rest ih => simp [ih]

/-- Stable descending insertion permutes. -/
theorem insertChainDesc_perm (c : ReplyChain) (l : List ReplyChain) :
    (insertChainDesc c l).Perm (c :: l) := by
  induction l with
  | nil => exact List.Perm.refl _
  | cons d ds ih =>
    simp only [insertChainDesc]
    split
    · exact List.Perm.refl _
    · exact (ih.cons d).trans (List.Perm.swap c d ds)

/-- The chain sort permutes the chain list. -/
theorem sortChainsDesc_perm (l : List ReplyChain) : (sortChainsDesc l).Perm l := by
  induction l with
  | nil => exact List.Perm.refl _
  | cons c cs ih => exact (insertChainDesc_perm c (sortChainsDesc cs)).trans (ih.cons c)

/-- One chain-discovery step preserves the discovery invariants: the
visited set is exactly the union of the discovered chains, the chains are
pairwise disjoint and duplicate-free, the visited set grows monotonically,
the start id ends up visited, and the visited set grows only by the start
id or adjacency entries. -/
theorem discoverStep_spec (adj : List (Int × List Int)) (edges : List GraphEdge)
    (fuel : Nat) (hfuel : 1 + (adjValues adj).length ≤ fuel)
    (st : DiscoverState) (startId : Int)
    (hA : ∀ x, x ∈ st.visited ↔ ∃ pc ∈ st.pre, x ∈ pc.nodeIds)
    (hB : (st.pre.flatMap (fun pc => pc.nodeIds)).Nodup) :
    (∀ x, x ∈ (discoverStep adj edges fuel st startId).visited
        ↔ ∃ pc ∈ (discoverStep adj edges fuel st startId).pre, x ∈ pc.nodeIds)
    ∧ ((discoverStep adj edges fuel st startId).pre.flatMap
        (fun pc => pc.nodeIds)).Nodup
    ∧ (∀ x ∈ st.visited, x ∈ (discoverStep adj edges fuel st startId).visited)
    ∧ startId ∈ (discoverStep adj edges fuel st startId).visited
    ∧ (∀ x ∈ (discoverStep adj edges fuel st startId).visited,
        x ∈ st.visited ∨ x = startId ∨ x ∈ adjValues adj) := by
  by_cases hv : st.visited.contains startId = true
  · have hst : discoverStep adj edges fuel st startId = st := by
      unfold discoverStep
      rw [if_pos hv]
    rw [hst]
    exact ⟨hA, hB, fun x hx => hx, List.elem_iff.mp hv, fun x hx => Or.inl hx⟩
  · have hstart : startId ∉ st.visited := fun hm => hv (contains_of_mem hm)
    have H1 : ∀ x, x ∈ st.visited ++ [startId]
        ↔ x ∈ st.visited ∨ x ∈ ([] : List Int) ∨ x ∈ [startId] := by
      intro x
      simp
    have H2 : (([] : List Int) ++ [startId]).Nodup := by simp
    have H3 : ∀ x ∈ ([] : List Int) ++ [startId], x ∉ st.visited := by
      intro x hx
      simp at hx
      subst hx
      exact hstart
    have hc := countNotIn_le_length (adjValues adj) (st.visited ++ [startId])
    have H4 : ([startId] : List Int).length
        + countNotIn (adjValues adj) (st.visited ++ [startId]) ≤ fuel := by
      simp only [List.length_cons, List.length_nil]
      omega
    obtain ⟨c1, c2, c3, c4, c5⟩ := bfsLoop_spec adj fuel [startId]
      (st.visited ++ [startId]) [] st.visited H1 H2 H3 H4
    have hstep : discoverStep adj edges fuel st startId
        = { visited := (bfsLoop adj fuel [startId] (st.visited ++ [startId]) []).2
            chainCounter := st.chainCounter + 1
            pre := st.pre ++ [buildPreChain edges fuel (st.chainCounter + 1)
              (bfsLoop adj fuel [startId] (st.visited ++ [startId]) []).1] } := by
      unfold discoverStep
      rw [if_neg hv]
    rw [hstep]
    refine ⟨?_, ?_, ?_, ?_, ?_⟩
    · intro x
      constructor
      · intro hx
        rcases (c2 x).mp hx with hx | hx
        · rcases (hA x).mp hx with ⟨pc, hpc, hxpc⟩
          exact ⟨pc, List.mem_append.mpr (Or.inl hpc), hxpc⟩
        · exact ⟨buildPreChain edges fuel (st.chainCounter + 1)
            (bfsLoop adj fuel [startId] (st.visited ++ [startId]) []).1,
            List.mem_append.mpr (Or.inr (List.mem_singleton.mpr rfl)), hx⟩
      · rintro ⟨pc, hpc, hxpc⟩
        rcases List.mem_append.mp hpc with hpc | hpc
        · exact (c2 x).mpr (Or.inl ((hA x).mpr ⟨pc, hpc, hxpc⟩))
        · rw [List.mem_singleton] at hpc
          subst hpc
          exact (c2 x).mpr (Or.inr hxpc)
    · rw [List.flatMap_append]
      have hflat : ([buildPreChain edges fuel (st.chainCounter + 1)
          (bfsLoop adj fuel [startId] (st.visited ++ [startId]) []).1].flatMap
            (fun pc => pc.nodeIds))
          = (bfsLoop adj fuel [startId] (st.visited ++ [startId]) []).1 := by
        simp [buildPreChain]
      rw [hflat]
      apply List.Nodup.append hB c1
      intro x hx hx2
      rcases List.mem_flatMap.mp hx with ⟨pc, hpc, hxpc⟩
      exact c3 x hx2 ((hA x).mpr ⟨pc, hpc, hxpc⟩)
    · intro x hx
      exact (c2 x).mpr (Or.inl hx)
    · have hs : startId ∈ (bfsLoop adj fuel [startId] (st.visited ++ [startId]) []).1 :=
        c5 startId (by simp)
      exact (c2 startId).mpr (Or.inr hs)
    · intro x hx
      rcases (c2 x).mp hx with hx | hx
      · exact Or.inl hx
      · rcases c4 x hx with h | h | h
        · simp at h
        · simp at h
          exact Or.inr (Or.inl h)
        · exact Or.inr (Or.inr h)

/-- Invariants of the full chain-discovery loop. -/
theorem discover_fold_spec (adj : List (Int × List Int)) (edges : List GraphEdge)
    (fuel : Nat) (hfuel : 1 + (adjValues adj).length ≤ fuel) :
    ∀ (ids : List Int) (st : DiscoverState),
      (∀ x, x ∈ st.visited ↔ ∃ pc ∈ st.pre, x ∈ pc.nodeIds) →
      ((st.pre.flatMap (fun pc => pc.nodeIds)).Nodup) →
      ((∀ x, x ∈ (ids.foldl (discoverStep adj edges fuel) st).visited
          ↔ ∃ pc ∈ (ids.foldl (discoverStep adj edges fuel) st).pre, x ∈ pc.nodeIds)
        ∧ ((ids.foldl (discoverStep adj edges fuel) st).pre.flatMap
            (fun pc => pc.nodeIds)).Nodup
        ∧ (∀ x ∈ ids, x ∈ (ids.foldl (discoverStep adj edges fuel) st).visited)
        ∧ (∀ x ∈ st.visited, x ∈ (ids.foldl (discoverStep adj edges fuel) st).visited)
        ∧ (∀ x ∈ (ids.foldl (discoverStep adj edges fuel) st).visited,
            x ∈ st.visited ∨ x ∈ ids ∨ x ∈ adjValues adj)) := by
  intro ids
  induction ids with
  | nil =>
    intro st hA hB
    exact ⟨hA, hB, by simp, fun x hx => hx, fun x hx => Or.inl hx⟩
  | cons s rest ih =>
    intro st hA hB
    simp only [List.foldl_cons]
    obtain ⟨d1, d2, d3, d4, d5⟩ := discoverStep_spec adj edges fuel hfuel st s hA hB
    obtain ⟨e1, e2, e3, e4, e5⟩ := ih (discoverStep adj edges fuel st s) d1 d2
    refine ⟨e1, e2, ?_, ?_, ?_⟩
    · intro x hx
      rcases List.mem_cons.mp hx with rfl | hx
      · exact e4 x d4
      · exact e3 x hx
    · intro x hx
      exact e4 x (d3 x hx)
    · intro x hx
      rcases e5 x hx with hx2 | hx2 | hx2
      · rcases d5 x hx2 with h | h | h
        · exact Or.inl h
        · exact Or.inr (Or.inl (by rw [h]; exact List.mem_cons_self s rest))
        · exact Or.inr (Or.inr h)
      · exact Or.inr (Or.inl (List.mem_cons_of_mem s hx2))
      · exact Or.inr (Or.inr hx2)

/-- **C2**: the chains returned by `buildReplyGraph` partition the node
set — the concatenation of all chains' node lists is a permutation of the
output node list, node ids are duplicate-free, and every node's `chainId`
equals the id of the (unique) chain whose node list contains it; this is
stated of the output chain list, i.e. after the re-sort by descending
member count. -/
theorem claim_C2 (messages : List TelegramMessage) (b : Bool) :
    (((buildReplyGraph messages b).chains.map ReplyChain.nodes).flatten).Perm
        (buildReplyGraph messages b).nodes
    ∧ ((buildReplyGraph messages b).nodes.map GraphNode.id).Nodup
    ∧ ∀ c ∈ (buildReplyGraph messages b).chains, ∀ n ∈ c.nodes, n.chainId = c.id := by
  have hids_nd := collectStateOf_nodeIds_nodup messages b
  have hadj_le := adjValues_buildAdj_le (collectStateOf messages b).nodeIds
    (collectStateOf messages b).edges
  have hfuel : 1 + (adjValues (adjOf messages b)).length ≤ fuelOf 0 messages b := by
    unfold fuelOf
    unfold adjOf at hadj_le ⊢
    omega
  have hedge := collect_closed (buildMessageMap messages) b (replyMessagesOf messages)
    { selfReplyCount := 0, crossChannelReplyCount := 0, nodeIds := [], edges := [] }
    (by simp)
  have hadjsub : ∀ x ∈ adjValues (adjOf messages b),
      x ∈ (collectStateOf messages b).nodeIds := by
    intro x hx
    rcases adjValues_buildAdj_endpoints (collectStateOf messages b).nodeIds
      (collectStateOf messages b).edges x hx with ⟨e, he, hor⟩
    rcases hor with rfl | rfl
    · exact (hedge e he).1
    · exact (hedge e he).2
  obtain ⟨hA0, hB0, hcov0, _, hsub0⟩ := discover_fold_spec (adjOf messages b)
    (collectStateOf messages b).edges (fuelOf 0 messages b) hfuel
    (collectStateOf messages b).nodeIds
    { visited := [], chainCounter := 0, pre := [] } (by simp) (by simp)
  have hA : ∀ x, x ∈ (discoverOf 0 messages b).visited
      ↔ ∃ pc ∈ (discoverOf 0 messages b).pre, x ∈ pc.nodeIds := hA0
  have hB : ((discoverOf 0 messages b).pre.flatMap (fun pc => pc.nodeIds)).Nodup := hB0
  have hcov : ∀ x ∈ (collectStateOf messages b).nodeIds,
      x ∈ (discoverOf 0 messages b).visited := hcov0
  have hsub : ∀ x ∈ (discoverOf 0 messages b).visited,
      x ∈ ([] : List Int) ∨ x ∈ (collectStateOf messages b).nodeIds
        ∨ x ∈ adjValues (adjOf messages b) := hsub0
  have hvis_ids : ∀ x, x ∈ (discoverOf 0 messages b).visited
      ↔ x ∈ (collectStateOf messages b).nodeIds := by
    intro x
    constructor
    · intro hx
      rcases hsub x hx with hx | hx | hx
      · simp at hx
      · exact hx
      · exact hadjsub x hx
    · intro hx
      exact hcov x hx
  have hflat_perm : ((discoverOf 0 messages b).pre.flatMap
      (fun pc => pc.nodeIds)).Perm (collectStateOf messages b).nodeIds := by
    rw [List.perm_ext_iff_of_nodup hB hids_nd]
    intro a
    rw [List.mem_flatMap, ← hvis_ids a]
    exact (hA a).symm
  have hF : ∀ i ∈ (collectStateOf messages b).nodeIds,
      (findNode (finalNodesOf 0 messages b) i).getD defaultGraphNode
        = { mkGraphNode (buildMessageMap messages) i with
            chainId := chainIdOf (discoverOf 0 messages b).pre i } := by
    intro i hi
    rw [findNode_finalNodesOf 0 messages b i hi]
    rfl
  refine ⟨?_, ?_, ?_⟩
  · have hmapnodes : (chainsOf 0 messages b).map ReplyChain.nodes
        = (discoverOf 0 messages b).pre.map (fun pc => pc.nodeIds.map (fun i =>
            (findNode (finalNodesOf 0 messages b) i).getD defaultGraphNode)) := by
      unfold chainsOf
      rw [List.map_map]
      rfl
    have hp1 : (((buildReplyGraph messages b).chains.map ReplyChain.nodes).flatten).Perm
        (((chainsOf 0 messages b).map ReplyChain.nodes).flatten) :=
      ((sortChainsDesc_perm (chainsOf 0 messages b)).map ReplyChain.nodes).flatten
    have hstep2 : (((chainsOf 0 messages b).map ReplyChain.nodes).flatten)
        = ((discoverOf 0 messages b).pre.flatMap (fun pc => pc.nodeIds)).map
            (fun i => (findNode (finalNodesOf 0 messages b) i).getD defaultGraphNode) := by
      rw [hmapnodes]
      exact flatten_map_map _ _ _
    have hfinal_eq : (collectStateOf messages b).nodeIds.map
        (fun i => (findNode (finalNodesOf 0 messages b) i).getD defaultGraphNode)
        = finalNodesOf 0 messages b := by
      conv_rhs => rw [finalNodesOf_eq_map 0 messages b]
      apply List.map_congr_left
      intro i hi
      exact hF i hi
    refine hp1.trans ?_
    rw [hstep2]
    have hp2 := hflat_perm.map
      (fun i => (findNode (finalNodesOf 0 messages b) i).getD defaultGraphNode)
    rw [hfinal_eq] at hp2
    exact hp2
  · have hnodes_ids : (buildReplyGraph messages b).nodes.map GraphNode.id
        = (collectStateOf messages b).nodeIds := finalNodes_map_id 0 messages b
    rw [hnodes_ids]
    exact hids_nd
  · intro c hc n hn
    have hc2 : c ∈ chainsOf 0 messages b :=
      ((sortChainsDesc_perm (chainsOf 0 messages b)).mem_iff).mp hc
    unfold chainsOf at hc2
    rcases List.mem_map.mp hc2 with ⟨pc, hpc, rfl⟩
    rcases List.mem_map.mp hn with ⟨i, hi, rfl⟩
    have hiids : i ∈ (collectStateOf messages b).nodeIds :=
      (hvis_ids i).mp ((hA i).mpr ⟨pc, hpc, hi⟩)
    rw [hF i hiids]
    exact chainIdOf_eq (discoverOf 0 messages b).pre hB pc hpc i hi

set_option maxRecDepth 400000 in
/-- Witness for **C2** on the included dangling-reference scenario: the
single chain holds both nodes, ids are duplicate-free, and the first node
of the first chain carries that chain's id. -/
theorem claim_C2_witness :
    (((buildReplyGraph danglingInput true).chains.map ReplyChain.nodes).flatten).Perm
        (buildReplyGraph danglingInput true).nodes
    ∧ ((buildReplyGraph danglingInput true).nodes.map GraphNode.id).Nodup
    ∧ ((buildReplyGraph danglingInput true).chains.getD 0
          { id := 0, nodes := [], edges := [], rootId := 0, depth := 0 })
        ∈ (buildReplyGraph danglingInput true).chains
    ∧ (((buildReplyGraph danglingInput true).chains.getD 0
          { id := 0, nodes := [], edges := [], rootId := 0, depth := 0 }).nodes.getD 0
            defaultGraphNode)
        ∈ ((buildReplyGraph danglingInput true).chains.getD 0
          { id := 0, nodes := [], edges := [], rootId := 0, depth := 0 }).nodes
    ∧ (((buildReplyGraph danglingInput true).chains.getD 0
          { id := 0, nodes := [], edges := [], rootId := 0, depth := 0 }).nodes.getD 0
            defaultGraphNode).chainId
        = ((buildReplyGraph danglingInput true).chains.getD 0
          { id := 0, nodes := [], edges := [], rootId := 0, depth := 0 }).id :=
  ⟨(claim_C2 danglingInput true).1, (claim_C2 danglingInput true).2.1,
    by decide, by decide,
    (claim_C2 danglingInput true).2.2 _ (by decide) _ (by decide)⟩
